import Mathlib

/-!
Verification of the two decision engines of the minimal-ai repository:

* the depth-limited minimax / alpha-beta player
  (`src/Tools/Sample_AIs/Minimal_AI/StudentAI.py`), and
* the time-bounded MCTS player (`src/src/checkers-python/StudentAI.py`).

The board representation and rules engine (`BoardClasses`, `Move`) are
external collaborators of the repository and are not part of its sources;
they enter the embedding as opaque parameters (move generation, move
application, terminal detection).  Everything else is translated directly
from the Python sources.  Randomness (`random.choice` in rollouts) and the
floating-point UCB1 child choice are modelled as oracle parameters; the
theorems quantify over every oracle, so they cover the concrete random /
UCB behaviour as a special case.
-/

namespace MinimalAI

/-- A move value: the ordered list of board coordinates of one turn
(the Python `Move.seq`, a list of `(row, col)` pairs).  The empty list is
the reserved sentinel `Move([])`. -/
abbrev Mv := List (Nat × Nat)

/-- `self.opponent = {1: 2, 2: 1}` (both StudentAI classes). -/
def opp (p : Nat) : Nat := if p = 1 then 2 else 1

/-- One board cell as stored by the external `BoardClasses` board: a checker
object with a color character (B, W, or a dot for an empty cell) and a king
flag.  The mapping color 1 = Black = B, color 2 = White = W is the one
documented in `Tools/Sample_AIs/Minimal_AI/StudentAI.py` (lines 14 and
122-124). -/
structure Piece where
  color : Char
  is_king : Bool
deriving DecidableEq

/-- The grid of cells of a board snapshot (`board.board[r][c]`). -/
abbrev Grid := Nat → Nat → Piece

/-- The list of cell coordinates visited by the nested
`for r in range(row): for c in range(col):` loops. -/
def cells (row col : Nat) : List (Nat × Nat) :=
  (List.range row).flatMap fun r => (List.range col).map fun c => (r, c)

/-- `me_color = 'B' if self.color == 1 else 'W'` (minimax `_evaluate`). -/
def meChar (color : Nat) : Char := if color = 1 then 'B' else 'W'

/-- `opp_color = 'W' if self.color == 1 else 'B'` (minimax `_evaluate`). -/
def opChar (color : Nat) : Char := if color = 1 then 'W' else 'B'

/-- Count of own kings accumulated by the `_evaluate` grid scan. -/
def myKings (row col color : Nat) (grid : Grid) : Nat :=
  (cells row col).countP fun rc =>
    decide ((grid rc.1 rc.2).color = meChar color ∧ (grid rc.1 rc.2).is_king = true)

/-- Count of own ordinary pieces (men) accumulated by `_evaluate`. -/
def myMen (row col color : Nat) (grid : Grid) : Nat :=
  (cells row col).countP fun rc =>
    decide ((grid rc.1 rc.2).color = meChar color ∧ (grid rc.1 rc.2).is_king = false)

/-- Count of opponent kings accumulated by `_evaluate`. -/
def opKings (row col color : Nat) (grid : Grid) : Nat :=
  (cells row col).countP fun rc =>
    decide ((grid rc.1 rc.2).color = opChar color ∧ (grid rc.1 rc.2).is_king = true)

/-- Count of opponent men accumulated by `_evaluate`. -/
def opMen (row col color : Nat) (grid : Grid) : Nat :=
  (cells row col).countP fun rc =>
    decide ((grid rc.1 rc.2).color = opChar color ∧ (grid rc.1 rc.2).is_king = false)

/-- `1 <= r < self.row - 1 and 1 <= c < self.col - 1` (interior cells). -/
def isCenter (row col : Nat) (rc : Nat × Nat) : Prop :=
  1 ≤ rc.1 ∧ rc.1 < row - 1 ∧ 1 ≤ rc.2 ∧ rc.2 < col - 1

instance (row col : Nat) (rc : Nat × Nat) : Decidable (isCenter row col rc) := by
  unfold isCenter; infer_instance

/-- Own pieces on interior cells (`my_center`). -/
def myCenter (row col color : Nat) (grid : Grid) : Nat :=
  (cells row col).countP fun rc =>
    decide ((grid rc.1 rc.2).color = meChar color ∧ isCenter row col rc)

/-- Opponent pieces on interior cells (`opp_center`). -/
def opCenter (row col color : Nat) (grid : Grid) : Nat :=
  (cells row col).countP fun rc =>
    decide ((grid rc.1 rc.2).color = opChar color ∧ isCenter row col rc)

/-- The advancement contribution of one cell for a piece of character `ch`:
`r if ch == 'B' else (row - 1 - r)`. -/
def advTerm (row : Nat) (ch : Char) (rc : Nat × Nat) : Int :=
  if ch = 'B' then (rc.1 : Int) else (row : Int) - 1 - (rc.1 : Int)

/-- Cumulative advancement of own pieces (`my_adv`). -/
def myAdv (row col color : Nat) (grid : Grid) : Int :=
  ((cells row col).map fun rc =>
    if (grid rc.1 rc.2).color = meChar color then advTerm row (meChar color) rc else 0).sum

/-- Cumulative advancement of opponent pieces (`opp_adv`). -/
def opAdv (row col color : Nat) (grid : Grid) : Int :=
  ((cells row col).map fun rc =>
    if (grid rc.1 rc.2).color = opChar color then advTerm row (opChar color) rc else 0).sum

/-- Total number of legal moves in a grouped move list
(`sum(len(g) for g in moves)`). -/
def mobility (groups : List (List Mv)) : Nat := (groups.map List.length).sum

/-- `_evaluate` of the minimax player (StudentAI.py lines 113-152).  The
external calls are parameters: `grid` is the piece grid of the board,
`myMoves` / `oppMoves` are the grouped results of
`board.get_all_possible_moves` for the two sides, and `term` is the result
of `board.is_win(self.color)`. -/
def evaluate (row col color : Nat) (grid : Grid)
    (myMoves oppMoves : List (List Mv)) (term : Int) : Int :=
  let my_kings := myKings row col color grid
  let my_men := myMen row col color grid
  let opp_kings := opKings row col color grid
  let opp_men := opMen row col color grid
  let my_center := myCenter row col color grid
  let opp_center := opCenter row col color grid
  let my_adv := myAdv row col color grid
  let opp_adv := opAdv row col color grid
  let my_mob := mobility myMoves
  let opp_mob := mobility oppMoves
  if term = (color : Int) then 10000
  else if term = (opp color : Int) then -10000
  else if term = -1 then 0
  else
    120 * ((my_kings : Int) - opp_kings) + 50 * ((my_men : Int) - opp_men)
      + 6 * ((my_mob : Int) - opp_mob) + 2 * ((my_center : Int) - opp_center)
      + 1 * (my_adv - opp_adv)

/-- The sort key of `_order_moves` (StudentAI.py lines 101-110).  `color` is
`self.color`, the engine's own color — the source uses it for the promotion
test no matter whose moves are being ordered.  Nat subtraction truncates at
zero, which is exactly `max(0, length - 2)`. -/
def moveKey (row color : Nat) (m : Mv) : Nat :=
  let cap_bonus := (m.length - 2) * 10
  let end_r := (m.getLastD (0, 0)).1
  let promo : Nat :=
    if (color = 1 ∧ end_r = row - 1) ∨ (color = 2 ∧ end_r = 0) then 1 else 0
  cap_bonus + promo * 5

/-- `_order_moves`: `sorted(moves, key=key, reverse=True)` — a stable sort
in descending key order, modelled by the stable `List.mergeSort` with the
descending comparison. -/
def orderMoves (row color : Nat) (moves : List Mv) : List Mv :=
  moves.mergeSort fun a b => decide (moveKey row color b ≤ moveKey row color a)

/-- The ordering key as the specification claims it, with the promotion
bonus awarded for `movingPlayer`, the player actually making the move:
player 1 (Black) promotes on row `row - 1`, player 2 (White) on row 0.
This definition follows the claim's words and is compared against the
source definition `moveKey`. -/
def claimKey (row movingPlayer : Nat) (m : Mv) : Nat :=
  let cap_bonus := (m.length - 2) * 10
  let end_r := (m.getLastD (0, 0)).1
  let promo : Nat :=
    if (movingPlayer = 1 ∧ end_r = row - 1) ∨ (movingPlayer = 2 ∧ end_r = 0) then 1 else 0
  cap_bonus + promo * 5

/-- `_material_winner` of the MCTS player (checkers-python StudentAI.py
lines 196-226), translated literally: note that it maps color 1 to the
character W and color 2 to B.  (The `piece == "."` test of the source
compares a checker object with a string and is never true; the subsequent
`getattr` reads are the cell's color and king flag.) -/
def materialWinner (row col color : Nat) (grid : Grid) : Int :=
  let my_char := if color = 1 then 'W' else 'B'
  let opp_char := if color = 1 then 'B' else 'W'
  let my_score : Nat :=
    ((cells row col).map fun rc =>
      if (grid rc.1 rc.2).color = my_char then
        (if (grid rc.1 rc.2).is_king then 3 else 1) else 0).sum
  let opp_score : Nat :=
    ((cells row col).map fun rc =>
      if (grid rc.1 rc.2).color = opp_char then
        (if (grid rc.1 rc.2).is_king then 3 else 1) else 0).sum
  if my_score > opp_score then (color : Int)
  else if opp_score > my_score then (opp color : Int)
  else -1

/-- The weighted material a player actually owns on the grid, with the
color-character mapping documented in the repository (color 1 = Black = B):
own kings count 3, own men count 1.  This is the claim-side quantity that
`_material_winner` is supposed to compare. -/
def ownMaterial (row col p : Nat) (grid : Grid) : Nat :=
  ((cells row col).map fun rc =>
    if (grid rc.1 rc.2).color = (if p = 1 then 'B' else 'W') then
      (if (grid rc.1 rc.2).is_king then 3 else 1) else 0).sum

/-- The external rules-engine interface consumed by both `get_move`
implementations: grouped legal-move generation, move application and
terminal detection on board values `B`. -/
structure Ext (B : Type) where
  getAllPossibleMoves : B → Nat → List (List Mv)
  makeMove : B → Mv → Nat → B
  isWin : B → Nat → Int

/-- `_get_all_moves` of the MCTS player: flatten the grouped moves (an
empty group list flattens to `[]`, which is also what the `if not groups`
branch returns). -/
def getAllMovesE {B : Type} (E : Ext B) (b : B) (p : Nat) : List Mv :=
  (E.getAllPossibleMoves b p).flatten

/-- The board after applying the opponent's supplied move, as done at the
top of both `get_move` bodies: `if len(move) != 0:
self.board.make_move(move, self.opponent[self.color])`. -/
def afterOpp {B : Type} (E : Ext B) (board : B) (color : Nat) (move : Mv) : B :=
  if move = [] then board else E.makeMove board move (opp color)

/-- `_rollout` of the MCTS player (lines 162-194).  `pick` is the oracle for
`random.choice` (it receives the step counter and the move list and yields
an index, reduced mod the length so the function is total; any actual
choice is one of these oracles), `grid` projects the piece grid out of a
board value, and the fuel argument is `max_steps` (80 in the source).  When
the fuel is exhausted the winner is decided by `_material_winner`. -/
def rollout {B : Type} (E : Ext B) (color : Nat) (pick : Nat → List Mv → Nat)
    (grid : B → Grid) (row col : Nat) : Nat → B → Nat → Int
  | 0, b, _ => materialWinner row col color (grid b)
  | fuel + 1, b, p =>
    let w_self := E.isWin b color
    let w_opp := E.isWin b (opp color)
    if w_self = (color : Int) then (color : Int)
    else if w_opp = (opp color : Int) then (opp color : Int)
    else if w_self = -1 ∨ w_opp = -1 then -1
    else
      match getAllMovesE E b p with
      | [] => (opp p : Int)
      | mv :: ms =>
        let picked := (mv :: ms).get ⟨pick fuel (mv :: ms) % (mv :: ms).length,
          Nat.mod_lt _ (Nat.succ_pos ms.length)⟩
        rollout E color pick grid row col fuel (E.makeMove b picked p) (opp p)

/-- A toy rules engine used to drive a rollout into the 80-ply ceiling:
the board is a single fixed grid, there is always exactly one legal move,
applying it changes nothing, and no terminal state is ever reported. -/
def ceilingExt : Ext Unit where
  getAllPossibleMoves := fun _ _ => [[[(0, 0), (1, 1)]]]
  makeMove := fun _ _ _ => ()
  isWin := fun _ _ => 0

/-- A 7x7 grid holding a single black man at (0,0) and nothing else. -/
def bugGrid : Grid := fun r c =>
  if r = 0 ∧ c = 0 then ⟨'B', false⟩ else ⟨'.', false⟩

/-- `get_move` of the minimax player (lines 19-56) after the lazy board
initialization (the `Board` constructor is external).  The alpha-beta root
loop is abstracted into the `search` argument here so that the shortcut
claims can quantify over it; its concrete embedding is `rootGo` below.
The result pairs the returned move with the authoritative board after the
call. -/
def getMoveMini {B : Type} (E : Ext B) (search : B → List Mv → Mv)
    (board : B) (color : Nat) (move : Mv) : Mv × B :=
  let b1 := afterOpp E board color move
  let groups := E.getAllPossibleMoves b1 color
  if groups = [] then ([], b1)
  else
    match groups.flatten with
    | [m] => (m, E.makeMove b1 m color)
    | flat =>
      let best := search b1 flat
      (best, E.makeMove b1 best color)

/-- A search node of the MCTS player (class `MCTSNode`).  The Python node
stores the board, the player to move, the move that led here, the not yet
expanded legal moves, the owned children, and the statistics `wins` /
`visits`; the parent back-reference disappears in this functional tree
(backpropagation is the return path of `step` below).  The extra
`rolloutsHere` field is ghost instrumentation counting how often this node
itself was the start point of a rollout — it influences nothing. -/
inductive MTree (B : Type) : Type where
  | node (board : B) (player : Nat) (mv : Option Mv) (untried : List Mv)
      (children : List (MTree B)) (wins : Rat) (visits : Nat)
      (rolloutsHere : Nat) : MTree B

def MTree.board {B : Type} : MTree B → B
  | .node b _ _ _ _ _ _ _ => b

def MTree.player {B : Type} : MTree B → Nat
  | .node _ p _ _ _ _ _ _ => p

def MTree.mv {B : Type} : MTree B → Option Mv
  | .node _ _ m _ _ _ _ _ => m

def MTree.untried {B : Type} : MTree B → List Mv
  | .node _ _ _ u _ _ _ _ => u

def MTree.children {B : Type} : MTree B → List (MTree B)
  | .node _ _ _ _ ch _ _ _ => ch

def MTree.wins {B : Type} : MTree B → Rat
  | .node _ _ _ _ _ w _ _ => w

def MTree.visits {B : Type} : MTree B → Nat
  | .node _ _ _ _ _ _ v _ => v

def MTree.rolloutsHere {B : Type} : MTree B → Nat
  | .node _ _ _ _ _ _ _ sc => sc

/-- `MCTSNode.__init__`: a fresh node with
`untried_moves = ai._get_all_moves(board, player)`, no children and zero
statistics. -/
def mkNode {B : Type} (E : Ext B) (b : B) (p : Nat) (m : Option Mv) : MTree B :=
  .node b p m (getAllMovesE E b p) [] 0 0 0

/-- The value added to `wins` during `_backpropagate`: 1 if the rollout
winner is the engine's color, 1/2 for a draw (winner -1), 0 otherwise. -/
def rew (color : Nat) (winner : Int) : Rat :=
  if winner = (color : Int) then 1 else if winner = -1 then 1 / 2 else 0

/-- One iteration of the MCTS loop in `get_move` (lines 119-140): selection
(descend through fully expanded nodes with children via the chosen child),
expansion (pop the last untried move, create the child), simulation (the
`roll` oracle stands for `_rollout`, whose result is the only thing the
loop consumes), and backpropagation (on the return path every node on the
selected chain gets `visits + 1` and `wins + rew`).  `sel` abstracts
`best_child_ucb` — it receives the parent's visit count and the children
and yields a child index (reduced mod the length so the function is total;
the floating-point UCB1 argmax is one such oracle).  The second component
of the result is the rollout winner. -/
def step {B : Type} (E : Ext B) (color : Nat) (sel : Nat → List (MTree B) → Nat)
    (roll : B → Nat → Int) : MTree B → MTree B × Int
  | .node b p m u ch w v sc =>
    if hch : u = [] ∧ 0 < ch.length then
      let k : Fin ch.length := ⟨sel v ch % ch.length, Nat.mod_lt _ hch.2⟩
      let r := step E color sel roll (ch.get k)
      (.node b p m u (ch.set k r.1) (w + rew color r.2) (v + 1) sc, r.2)
    else if hu : u ≠ [] ∧ E.isWin b color = 0 ∧ E.isWin b (opp color) = 0 then
      let mvp := u.getLast hu.1
      let nb := E.makeMove b mvp p
      let np := opp p
      let winner := roll nb np
      let child : MTree B :=
        .node nb np (some mvp) (getAllMovesE E nb np) [] (rew color winner) 1 1
      (.node b p m u.dropLast (ch ++ [child]) (w + rew color winner) (v + 1) sc,
        winner)
    else
      let winner := roll b p
      (.node b p m u ch (w + rew color winner) (v + 1) (sc + 1), winner)
termination_by t => sizeOf t
decreasing_by
  have h1 := List.sizeOf_lt_of_mem (List.get_mem _ _ k.2)
  simp only [MTree.node.sizeOf_spec]
  exact lt_of_lt_of_le h1 (by omega)

/-- The MCTS main loop: one `step` per oracle in the list (each list entry
is the rollout oracle of one iteration; the wall-clock budget of the
source determines only how many iterations run, i.e. the list length). -/
def run {B : Type} (E : Ext B) (color : Nat) (sel : Nat → List (MTree B) → Nat) :
    List (B → Nat → Int) → MTree B → MTree B
  | [], t => t
  | r :: rs, t => run E color sel rs (step E color sel r t).1

/-- `max(root.children, key=lambda c: c.visits)`: the first child with the
maximal visit count (Python's `max` keeps the earliest maximum). -/
def maxVisitsChild {B : Type} : List (MTree B) → Option (MTree B)
  | [] => none
  | c :: cs =>
    some (cs.foldl (fun best x => if best.visits < x.visits then x else best) c)

/-- `get_move` of the MCTS player (lines 78-152) after lazy initialization:
apply the opponent move, resign on no moves, shortcut on a single move,
otherwise run MCTS on a copy of the board and return the most-visited root
child's move (falling back to the first legal move if the root has no
children). -/
def getMoveMCTS {B : Type} (E : Ext B) (sel : Nat → List (MTree B) → Nat)
    (os : List (B → Nat → Int)) (board : B) (color : Nat) (move : Mv) : Mv × B :=
  let b1 := afterOpp E board color move
  let groups := E.getAllPossibleMoves b1 color
  if groups = [] then ([], b1)
  else
    match groups.flatten with
    | [m] => (m, E.makeMove b1 m color)
    | flat =>
      let root := mkNode E b1 color none
      let t := run E color sel os root
      let chosen :=
        match maxVisitsChild t.children with
        | none => flat.headD []
        | some c => c.mv.getD []
      (chosen, E.makeMove b1 chosen color)

/-- Conservation invariant of the search tree: at every node, the visit
count is the number of rollouts started at the node itself plus the visits
of its children. -/
inductive Balanced {B : Type} : MTree B → Prop where
  | node {b : B} {p : Nat} {m : Option Mv} {u : List Mv} {ch : List (MTree B)}
      {w : Rat} {v sc : Nat} :
      (∀ c ∈ ch, Balanced c) →
      v = sc + ((ch.map MTree.visits).sum) →
      Balanced (.node b p m u ch w v sc)

/-- Statistics invariant of the search tree: at every node,
`0 ≤ wins ≤ visits`. -/
inductive WinsOK {B : Type} : MTree B → Prop where
  | node {b : B} {p : Nat} {m : Option Mv} {u : List Mv} {ch : List (MTree B)}
      {w : Rat} {v sc : Nat} :
      (∀ c ∈ ch, WinsOK c) →
      0 ≤ w → w ≤ (v : Rat) →
      WinsOK (.node b p m u ch w v sc)

/-- Root bookkeeping used for the final move selection: all untried moves
and all children moves of the node come from the given legal move list. -/
def RootOK {B : Type} (flat : List Mv) (t : MTree B) : Prop :=
  (∀ m ∈ t.untried, m ∈ flat) ∧
  (∀ c ∈ t.children, ∃ m, c.mv = some m ∧ m ∈ flat)

/-- Scores extended with the float sentinels `float("-inf")` / `float("inf")`
used as initial alpha/beta/value bounds.  `_evaluate` only produces
integers, and IEEE comparisons between these integers and the two
infinities coincide with the order of this type. -/
abbrev EInt := WithBot (WithTop Int)

/-- An ordinary (finite) score as an extended score. -/
def toE (n : Int) : EInt := ((n : WithTop Int) : EInt)

/-- The abstract game seen by the minimax engine: `maxMoves b` is the
ordered flat move list `_order_moves([m for g in b.get_all_possible_moves
(color) for m in g])` of the engine's color, `minMoves` the same for the
opponent, `applyMax` / `applyMin` are `_apply` (move application on a deep
copy) for the two sides, `maxStop b` is `board.is_win(color) != 0` (the
leaf test of `_max_value`), `minStop b` is `board.is_win(opponent) != 0`
(the leaf test of `_min_value`), and `eval` is `_evaluate`.  All of these
are pure functions of the board value. -/
structure Game (B M : Type) where
  maxMoves : B → List M
  minMoves : B → List M
  applyMax : B → M → B
  applyMin : B → M → B
  maxStop : B → Bool
  minStop : B → Bool
  eval : B → Int

/-- The candidate loop of `_max_value` (lines 68-74):
`value = max(value, rec(child, alpha, beta)); alpha = max(alpha, value);
if value >= beta: break`. -/
def maxGo {B M : Type} (f : B → EInt → EInt → EInt) (app : B → M → B) (b : B) :
    List M → EInt → EInt → EInt → EInt
  | [], v, _, _ => v
  | mv :: ms, v, al, bt =>
    let v2 := max v (f (app b mv) al bt)
    if bt ≤ v2 then v2 else maxGo f app b ms v2 (max al v2) bt

/-- The candidate loop of `_min_value` (lines 86-92):
`value = min(value, rec(child, alpha, beta)); beta = min(beta, value);
if value <= alpha: break`. -/
def minGo {B M : Type} (f : B → EInt → EInt → EInt) (app : B → M → B) (b : B) :
    List M → EInt → EInt → EInt → EInt
  | [], v, _, _ => v
  | mv :: ms, v, al, bt =>
    let v2 := min v (f (app b mv) al bt)
    if v2 ≤ al then v2 else minGo f app b ms v2 al (min bt v2)

/-- `_max_value` and `_min_value` (lines 59-93) as one structural recursion
on the depth: component 1 is `_max_value`, component 2 is `_min_value`.
Each returns `_evaluate` when its `is_win` test fires, when the depth is
exhausted, or when the side to move has no moves, and otherwise runs its
candidate loop starting from `float("-inf")` (resp. `float("inf")`). -/
def abPy {B M : Type} (g : Game B M) :
    Nat → (B → EInt → EInt → EInt) × (B → EInt → EInt → EInt)
  | 0 => (fun bd _ _ => toE (g.eval bd), fun bd _ _ => toE (g.eval bd))
  | d + 1 =>
    (fun bd al bt =>
      if g.maxStop bd then toE (g.eval bd)
      else
        match g.maxMoves bd with
        | [] => toE (g.eval bd)
        | ms => maxGo (abPy g d).2 g.applyMax bd ms ⊥ al bt,
     fun bd al bt =>
      if g.minStop bd then toE (g.eval bd)
      else
        match g.minMoves bd with
        | [] => toE (g.eval bd)
        | ms => minGo (abPy g d).1 g.applyMin bd ms ⊤ al bt)

/-- Exhaustive (non-pruned) minimax of the same depth over the same
successor function and evaluator: the same recursion as `abPy` with the
alpha/beta bounds and the cutoffs removed, folding over every candidate. -/
def exhaust {B M : Type} (g : Game B M) : Nat → (B → EInt) × (B → EInt)
  | 0 => (fun bd => toE (g.eval bd), fun bd => toE (g.eval bd))
  | d + 1 =>
    (fun bd =>
      if g.maxStop bd then toE (g.eval bd)
      else
        match g.maxMoves bd with
        | [] => toE (g.eval bd)
        | ms => ms.foldl (fun acc mv => max acc ((exhaust g d).2 (g.applyMax bd mv))) ⊥,
     fun bd =>
      if g.minStop bd then toE (g.eval bd)
      else
        match g.minMoves bd with
        | [] => toE (g.eval bd)
        | ms => ms.foldl (fun acc mv => min acc ((exhaust g d).1 (g.applyMin bd mv))) ⊤)

/-- The root loop of the minimax `get_move` (lines 43-53):
`score = _min_value(child, max_depth - 1, alpha, beta);
if score > best_score: best_score, best_move = score, m;
alpha = max(alpha, best_score); if best_score >= beta: break`. -/
def rootGo {B M : Type} (f : B → EInt → EInt → EInt) (app : B → M → B) (b : B) :
    List M → EInt → Option M → EInt → EInt → EInt × Option M
  | [], best, bm, _, _ => (best, bm)
  | mv :: ms, best, bm, al, bt =>
    let s := f (app b mv) al bt
    let best2 := if best < s then s else best
    let bm2 := if best < s then some mv else bm
    if bt ≤ best2 then (best2, bm2) else rootGo f app b ms best2 bm2 (max al best2) bt

/-- The root selection of the minimax `get_move` for `max_depth = d`:
iterate the root loop over the ordered root moves with
`alpha, beta = float("-inf"), float("inf")` and
`best_score, best_move = float("-inf"), None`, calling `_min_value` at
depth `d - 1` on each successor. -/
def chooseMoveAB {B M : Type} (g : Game B M) (d : Nat) (bd : B) : EInt × Option M :=
  rootGo (abPy g (d - 1)).2 g.applyMax bd (g.maxMoves bd) ⊥ none ⊥ ⊤

/-- The fail-soft relation between an alpha-beta result `v` and the exact
minimax value `x` of the same node for a search window `al < bt`: below the
window `v` is an upper bound on `x`, inside the window it is exact, above
the window it is a lower bound. -/
def Approx (x al bt v : EInt) : Prop :=
  (v ≤ al → x ≤ v) ∧ (al < v → v < bt → v = x) ∧ (bt ≤ v → v ≤ x)

/-- A small concrete game used to instantiate the universally quantified
theorems: boards and moves are numbers, each board below 3 has the two
moves 0 and 1, applying move `m` to board `b` yields board `2*b + m + 1`,
no terminal positions, evaluation is the board number. -/
def toyGame : Game Nat Nat where
  maxMoves := fun b => if b < 3 then [0, 1] else []
  minMoves := fun b => if b < 3 then [0, 1] else []
  applyMax := fun b m => 2 * b + m + 1
  applyMin := fun b m => 2 * b + m + 1
  maxStop := fun _ => false
  minStop := fun _ => false
  eval := fun b => (b : Int)

/-- A trivial rules engine with no legal moves anywhere, used to
instantiate the MCTS theorems on a concrete input. -/
def emptyExt : Ext Unit where
  getAllPossibleMoves := fun _ _ => []
  makeMove := fun _ _ _ => ()
  isWin := fun _ _ => 0

/-- A rules engine with exactly two legal moves for either player and no
terminal positions, used to instantiate the MCTS theorems on a concrete
input with at least one completed iteration. -/
def twoMoveExt : Ext Unit where
  getAllPossibleMoves := fun _ _ => [[[(0, 0), (1, 1)]], [[(0, 0), (2, 2)]]]
  makeMove := fun _ _ _ => ()
  isWin := fun _ _ => 0

/-- A rules engine over boards that are single numbers, with one legal move
per position; used for the facade witnesses. -/
def lineExt : Ext Nat where
  getAllPossibleMoves := fun b _ => if b = 0 then [[[(0, 0), (1, 1)]]] else []
  makeMove := fun b _ _ => b + 1
  isWin := fun _ _ => 0

/-! ## Theorems -/

theorem opp_ne (c : Nat) : opp c ≠ c := by
  simp only [opp]; split <;> omega

theorem opp_cast_ne (c : Nat) : (opp c : Int) ≠ (c : Int) := by
  exact_mod_cast opp_ne c

/-- C5: on a decided board, `_evaluate` returns the win sentinel 10000 for
a win of the perspective player, exactly -10000 for a loss, and exactly 0
for a draw, whatever the material, mobility, center and advancement counts
are (they are all universally quantified here). -/
theorem c5_terminal_eval (row col color : Nat) (grid : Grid)
    (myMoves oppMoves : List (List Mv)) (term : Int) :
    (term = (color : Int) → evaluate row col color grid myMoves oppMoves term = 10000) ∧
    (term = (opp color : Int) → evaluate row col color grid myMoves oppMoves term = -10000) ∧
    (term = -1 → evaluate row col color grid myMoves oppMoves term = 0) := by
  have h1 : (opp color : Int) ≠ (color : Int) := opp_cast_ne color
  have h2 : (-1 : Int) ≠ (color : Int) := by omega
  have h3 : (-1 : Int) ≠ (opp color : Int) := by
    have : (0 : Int) ≤ (opp color : Int) := Int.natCast_nonneg _
    omega
  refine ⟨fun h => ?_, fun h => ?_, fun h => ?_⟩ <;> subst h <;>
    simp [evaluate, h1, h2, h3]

/-- Witness for C5 at a concrete input: the single-black-man 7x7 grid with
perspective player 1 and the three possible decided results. -/
theorem c5_terminal_eval_witness :
    evaluate 7 7 1 bugGrid [] [] 1 = 10000 ∧
    evaluate 7 7 1 bugGrid [] [] 2 = -10000 ∧
    evaluate 7 7 1 bugGrid [] [] (-1) = 0 :=
  ⟨(c5_terminal_eval 7 7 1 bugGrid [] [] 1).1 (by decide),
   (c5_terminal_eval 7 7 1 bugGrid [] [] 2).2.1 (by decide),
   (c5_terminal_eval 7 7 1 bugGrid [] [] (-1)).2.2 rfl⟩

unseal List.merge List.mergeSort in
/-- C4 fails on the code: ordering the opponent's (player 2's) moves — as
`_min_value` does — the source still awards the promotion bonus relative to
`self.color` (player 1 here), so a player-2 move that promotes on row 0 is
NOT ranked above a plain non-capture move, contradicting the claimed
descending order in the moving player's key. -/
theorem c4_counterexample :
    ¬ List.Pairwise (fun a b => claimKey 7 2 b ≤ claimKey 7 2 a)
      (orderMoves 7 1 [[(2, 2), (3, 3)], [(1, 1), (0, 0)]]) := by
  decide

/-- C4 amended: `_order_moves` sorts every input list (whosever moves they
are) in descending order of the source key — capture bonus
`10 * max(0, sequenceLength - 2)` plus a flat bonus of 5 exactly when the
final coordinate lands on the promotion rank of the ENGINE'S OWN color
`self.color` — and returns a permutation of its input. -/
theorem c4_order_moves_sorted (row color : Nat) (moves : List Mv) :
    (orderMoves row color moves).Perm moves ∧
    List.Pairwise (fun a b => moveKey row color b ≤ moveKey row color a)
      (orderMoves row color moves) := by
  constructor
  · exact List.mergeSort_perm moves _
  · have h := @List.sorted_mergeSort Mv
      (fun a b => decide (moveKey row color b ≤ moveKey row color a))
      (fun a b c h1 h2 => by simp only [decide_eq_true_eq] at *; omega)
      (fun a b => by simp only [Bool.or_eq_true, decide_eq_true_eq]; omega)
      moves
    exact h.imp fun hab => by simpa using hab

set_option maxRecDepth 4000 in
/-- C3: driving a rollout into the 80-ply ceiling on a 7x7 board where
player 1 (Black, the B pieces) owns one man and player 2 owns nothing, the
rollout — and `_material_winner`, which decides it — returns player 2, the
player with strictly LESS weighted material: `_material_winner` maps
color 1 to the character W although the repository's color convention is
color 1 = Black = B, so the comparison is inverted. -/
theorem c3_material_winner_inverted :
    rollout ceilingExt 1 (fun _ _ => 0) (fun _ => bugGrid) 7 7 80 () 1 = 2 ∧
    materialWinner 7 7 1 bugGrid = 2 ∧
    ownMaterial 7 7 1 bugGrid = 1 ∧ ownMaterial 7 7 2 bugGrid = 0 := by
  refine ⟨?_, by decide, by decide, by decide⟩
  decide

/-- C7: when exactly one legal move exists for the engine's side, both
engines return that move with the authoritative board equal to the
pre-search board (the board after the opponent's move was applied) with
exactly that move applied for the engine's color; the result does not
depend on the search at all (any two search functions / any two MCTS
oracle configurations give the same result). -/
theorem c7_single_move_shortcut {B : Type} (E : Ext B) (s1 s2 : B → List Mv → Mv)
    (sel1 sel2 : Nat → List (MTree B) → Nat) (os1 os2 : List (B → Nat → Int))
    (board : B) (color : Nat) (move : Mv) (m : Mv)
    (h : (E.getAllPossibleMoves (afterOpp E board color move) color).flatten = [m]) :
    getMoveMini E s1 board color move
      = (m, E.makeMove (afterOpp E board color move) m color) ∧
    getMoveMini E s1 board color move = getMoveMini E s2 board color move ∧
    getMoveMCTS E sel1 os1 board color move
      = (m, E.makeMove (afterOpp E board color move) m color) ∧
    getMoveMCTS E sel1 os1 board color move = getMoveMCTS E sel2 os2 board color move := by
  have hg : E.getAllPossibleMoves (afterOpp E board color move) color ≠ [] := by
    intro he
    rw [he] at h
    simp at h
  refine ⟨?_, ?_, ?_, ?_⟩ <;> simp [getMoveMini, getMoveMCTS, hg, h]

/-- Witness for C7: a concrete engine where board 0 has exactly one legal
move. -/
theorem c7_single_move_shortcut_witness :
    getMoveMini lineExt (fun _ _ => []) 0 1 [] = ([(0, 0), (1, 1)], 1) ∧
    getMoveMCTS lineExt (fun _ _ => 0) [] 0 1 [] = ([(0, 0), (1, 1)], 1) := by
  have h := c7_single_move_shortcut lineExt (fun _ _ => []) (fun _ _ => [])
    (fun _ _ => 0) (fun _ _ => 0) [] [] 0 1 [] [(0, 0), (1, 1)] (by decide)
  exact ⟨h.1, h.2.2.1⟩

/-- C8: when the engine's side has zero legal moves, both engines return
the empty move `Move([])` and leave the authoritative board exactly as it
was after the opponent's move was applied; again independently of the
search configuration. -/
theorem c8_resign_on_no_moves {B : Type} (E : Ext B) (s1 s2 : B → List Mv → Mv)
    (sel1 sel2 : Nat → List (MTree B) → Nat) (os1 os2 : List (B → Nat → Int))
    (board : B) (color : Nat) (move : Mv)
    (h : E.getAllPossibleMoves (afterOpp E board color move) color = []) :
    getMoveMini E s1 board color move = ([], afterOpp E board color move) ∧
    getMoveMini E s1 board color move = getMoveMini E s2 board color move ∧
    getMoveMCTS E sel1 os1 board color move = ([], afterOpp E board color move) ∧
    getMoveMCTS E sel1 os1 board color move = getMoveMCTS E sel2 os2 board color move := by
  refine ⟨?_, ?_, ?_, ?_⟩ <;> simp [getMoveMini, getMoveMCTS, h]

/-- Witness for C8: board 1 of the concrete engine has no legal moves. -/
theorem c8_resign_on_no_moves_witness :
    getMoveMini lineExt (fun _ _ => []) 1 1 [] = ([], 1) ∧
    getMoveMCTS lineExt (fun _ _ => 0) [] 1 1 [] = ([], 1) := by
  have h := c8_resign_on_no_moves lineExt (fun _ _ => []) (fun _ _ => [])
    (fun _ _ => 0) (fun _ _ => 0) [] [] 1 1 [] (by decide)
  exact ⟨h.1, h.2.2.1⟩

theorem countP_split {α : Type} (l : List α) (p q : α → Bool) :
    l.countP (fun x => p x && q x) + l.countP (fun x => p x && !q x) = l.countP p := by
  induction l with
  | nil => simp
  | cons a as ih =>
    simp only [List.countP_cons]
    cases hp : p a <;> cases hq : q a <;> simp [hp, hq] <;> omega

theorem cells_length : (cells 7 7).length = 49 := by decide

theorem mem_cells {row col : Nat} {rc : Nat × Nat} (h : rc ∈ cells row col) :
    rc.1 < row ∧ rc.2 < col := by
  simp only [cells, List.mem_flatMap, List.mem_map, List.mem_range] at h
  obtain ⟨r, hr, c, hc, he⟩ := h
  subst he
  exact ⟨hr, hc⟩

/-- Own kings and men together never exceed the number of scanned cells. -/
theorem kings_add_men_le (row col color : Nat) (grid : Grid) :
    myKings row col color grid + myMen row col color grid ≤ (cells row col).length := by
  have e1 : (fun rc : Nat × Nat =>
      decide ((grid rc.1 rc.2).color = meChar color ∧ (grid rc.1 rc.2).is_king = true))
      = fun rc : Nat × Nat =>
        decide ((grid rc.1 rc.2).color = meChar color) && (grid rc.1 rc.2).is_king := by
    funext rc
    cases hk : (grid rc.1 rc.2).is_king <;> simp [hk]
  have e2 : (fun rc : Nat × Nat =>
      decide ((grid rc.1 rc.2).color = meChar color ∧ (grid rc.1 rc.2).is_king = false))
      = fun rc : Nat × Nat =>
        decide ((grid rc.1 rc.2).color = meChar color) && !(grid rc.1 rc.2).is_king := by
    funext rc
    cases hk : (grid rc.1 rc.2).is_king <;> simp [hk]
  rw [myKings, myMen, e1, e2, countP_split]
  exact List.countP_le_length _

/-- Opponent kings and men together never exceed the number of scanned
cells. -/
theorem opKings_add_opMen_le (row col color : Nat) (grid : Grid) :
    opKings row col color grid + opMen row col color grid ≤ (cells row col).length := by
  have e1 : (fun rc : Nat × Nat =>
      decide ((grid rc.1 rc.2).color = opChar color ∧ (grid rc.1 rc.2).is_king = true))
      = fun rc : Nat × Nat =>
        decide ((grid rc.1 rc.2).color = opChar color) && (grid rc.1 rc.2).is_king := by
    funext rc
    cases hk : (grid rc.1 rc.2).is_king <;> simp [hk]
  have e2 : (fun rc : Nat × Nat =>
      decide ((grid rc.1 rc.2).color = opChar color ∧ (grid rc.1 rc.2).is_king = false))
      = fun rc : Nat × Nat =>
        decide ((grid rc.1 rc.2).color = opChar color) && !(grid rc.1 rc.2).is_king := by
    funext rc
    cases hk : (grid rc.1 rc.2).is_king <;> simp [hk]
  rw [opKings, opMen, e1, e2, countP_split]
  exact List.countP_le_length _

/-- The advancement of one scanned 7x7 cell lies in [0, 6]. -/
theorem advTerm_bounds {rc : Nat × Nat} (ch : Char) (h : rc.1 < 7) :
    0 ≤ advTerm 7 ch rc ∧ advTerm 7 ch rc ≤ 6 := by
  have h7 : (rc.1 : Int) ≤ 6 := by exact_mod_cast Nat.lt_succ_iff.mp h
  have h0 : (0 : Int) ≤ (rc.1 : Int) := Int.natCast_nonneg _
  unfold advTerm
  split <;> omega

/-- The accumulated own advancement on a 7x7 board lies in [0, 294]. -/
theorem myAdv_bounds (color : Nat) (grid : Grid) :
    0 ≤ myAdv 7 7 color grid ∧ myAdv 7 7 color grid ≤ 294 := by
  constructor
  · refine List.sum_nonneg ?_
    intro x hx
    obtain ⟨rc, hrc, he⟩ := List.mem_map.mp hx
    subst he
    split
    · exact (advTerm_bounds _ (mem_cells hrc).1).1
    · exact le_rfl
  · have h := List.sum_le_card_nsmul
      ((cells 7 7).map fun rc =>
        if (grid rc.1 rc.2).color = meChar color then advTerm 7 (meChar color) rc else 0)
      (6 : Int) ?_
    · rw [List.length_map, cells_length] at h
      refine le_trans h (by norm_num)
    · intro x hx
      obtain ⟨rc, hrc, he⟩ := List.mem_map.mp hx
      subst he
      split
      · exact (advTerm_bounds _ (mem_cells hrc).1).2
      · norm_num

/-- The accumulated opponent advancement on a 7x7 board lies in [0, 294]. -/
theorem opAdv_bounds (color : Nat) (grid : Grid) :
    0 ≤ opAdv 7 7 color grid ∧ opAdv 7 7 color grid ≤ 294 := by
  constructor
  · refine List.sum_nonneg ?_
    intro x hx
    obtain ⟨rc, hrc, he⟩ := List.mem_map.mp hx
    subst he
    split
    · exact (advTerm_bounds _ (mem_cells hrc).1).1
    · exact le_rfl
  · have h := List.sum_le_card_nsmul
      ((cells 7 7).map fun rc =>
        if (grid rc.1 rc.2).color = opChar color then advTerm 7 (opChar color) rc else 0)
      (6 : Int) ?_
    · rw [List.length_map, cells_length] at h
      refine le_trans h (by norm_num)
    · intro x hx
      obtain ⟨rc, hrc, he⟩ := List.mem_map.mp hx
      subst he
      split
      · exact (advTerm_bounds _ (mem_cells hrc).1).2
      · norm_num

/-- On any board whose side mobilities do not exceed 300 moves each (a very
generous bound for 7x7 boards reachable with the real rules engine), the
heuristic sum of `_evaluate` has magnitude at most 8072. -/
theorem evaluate_heuristic_bound (color : Nat) (grid : Grid)
    (myMoves oppMoves : List (List Mv)) (term : Int)
    (h1 : term ≠ (color : Int)) (h2 : term ≠ (opp color : Int)) (h3 : term ≠ -1)
    (hmy : mobility myMoves ≤ 300) (hop : mobility oppMoves ≤ 300) :
    |evaluate 7 7 color grid myMoves oppMoves term| ≤ 8072 := by
  have hK := kings_add_men_le 7 7 color grid
  have hOK := opKings_add_opMen_le 7 7 color grid
  have hC : myCenter 7 7 color grid ≤ 49 := by
    rw [← cells_length]; exact List.countP_le_length _
  have hOC : opCenter 7 7 color grid ≤ 49 := by
    rw [← cells_length]; exact List.countP_le_length _
  have hA := myAdv_bounds color grid
  have hOA := opAdv_bounds color grid
  rw [cells_length] at hK hOK
  rw [evaluate]
  simp only [if_neg h1, if_neg h2, if_neg h3]
  rw [abs_le]
  constructor <;> omega

/-- C6: `_evaluate` never returns a value of magnitude above the 10000
win/loss sentinel, and a board that is a proven win for the perspective
player evaluates strictly higher than any non-terminal board's heuristic
score.  The hypotheses encode reachable 7x7 boards: the grid scan itself
bounds the piece counts, and the per-side mobilities are bounded by 300
legal moves (generous for the real rules engine on 7x7). -/
theorem c6_score_bounds (color : Nat) (grid grid2 : Grid)
    (myMoves oppMoves myMoves2 oppMoves2 : List (List Mv)) (term : Int)
    (hcolor : color = 1 ∨ color = 2)
    (hmy : mobility myMoves ≤ 300) (hop : mobility oppMoves ≤ 300) :
    |evaluate 7 7 color grid myMoves oppMoves term| ≤ 10000 ∧
    evaluate 7 7 color grid2 myMoves2 oppMoves2 (color : Int)
      > evaluate 7 7 color grid myMoves oppMoves 0 := by
  have hwin : evaluate 7 7 color grid2 myMoves2 oppMoves2 (color : Int) = 10000 :=
    (c5_terminal_eval 7 7 color grid2 myMoves2 oppMoves2 (color : Int)).1 rfl
  have hz1 : (0 : Int) ≠ (color : Int) := by omega
  have hz2 : (0 : Int) ≠ (opp color : Int) := by
    rcases hcolor with h | h <;> subst h <;> decide
  have hz3 : (0 : Int) ≠ (-1 : Int) := by decide
  have hheur := evaluate_heuristic_bound color grid myMoves oppMoves 0 hz1 hz2 hz3 hmy hop
  constructor
  · rcases eq_or_ne term (color : Int) with h | h1
    · rw [(c5_terminal_eval 7 7 color grid myMoves oppMoves term).1 h]
      norm_num
    · rcases eq_or_ne term (opp color : Int) with h | h2
      · rw [(c5_terminal_eval 7 7 color grid myMoves oppMoves term).2.1 h]
        norm_num
      · rcases eq_or_ne term (-1 : Int) with h | h3
        · rw [(c5_terminal_eval 7 7 color grid myMoves oppMoves term).2.2 h]
          norm_num
        · have := evaluate_heuristic_bound color grid myMoves oppMoves term h1 h2 h3 hmy hop
          omega
  · rw [hwin]
    rw [abs_le] at hheur
    omega

/-- Witness for C6: the single-black-man grid against an empty grid as the
winning board, with empty move lists. -/
theorem c6_score_bounds_witness :
    |evaluate 7 7 1 bugGrid [] [] 0| ≤ 10000 ∧
    evaluate 7 7 1 bugGrid [] [] 1 > evaluate 7 7 1 bugGrid [] [] 0 := by
  have h := c6_score_bounds 1 bugGrid bugGrid [] [] [] [] 0 (Or.inl rfl)
    (by decide) (by decide)
  exact ⟨h.1, h.2⟩

/-- Structural induction over the search tree with the induction hypothesis
available for every child. -/
theorem MTree.indOn {B : Type} {P : MTree B → Prop}
    (h : ∀ b p m u ch w v sc, (∀ c ∈ ch, P c) → P (.node b p m u ch w v sc)) :
    ∀ t, P t
  | .node b p m u ch w v sc =>
    h b p m u ch w v sc (fun c _ => MTree.indOn h c)
termination_by t => sizeOf t
decreasing_by
  rename_i hc
  have h1 := List.sizeOf_lt_of_mem hc
  simp only [MTree.node.sizeOf_spec]
  omega

theorem rew_nonneg (color : Nat) (winner : Int) : 0 ≤ rew color winner := by
  simp only [rew]; split
  · norm_num
  · split <;> norm_num

theorem rew_le_one (color : Nat) (winner : Int) : rew color winner ≤ 1 := by
  simp only [rew]; split
  · norm_num
  · split <;> norm_num

/-- Every branch of `step` bumps the visit count of the node it is applied
to by exactly one and its win value by exactly the backpropagation reward
of the iteration's rollout winner, and keeps the node's board, player and
producing move. -/
theorem step_stats {B : Type} (E : Ext B) (color : Nat)
    (sel : Nat → List (MTree B) → Nat) (roll : B → Nat → Int) (t : MTree B) :
    (step E color sel roll t).1.visits = t.visits + 1 ∧
    (step E color sel roll t).1.wins = t.wins + rew color (step E color sel roll t).2 ∧
    (step E color sel roll t).1.board = t.board ∧
    (step E color sel roll t).1.player = t.player ∧
    (step E color sel roll t).1.mv = t.mv := by
  obtain ⟨b, p, m, u, ch, w, v, sc⟩ := t
  rw [step]
  split
  · simp [MTree.visits, MTree.wins, MTree.board, MTree.player, MTree.mv]
  · split <;>
      simp [MTree.visits, MTree.wins, MTree.board, MTree.player, MTree.mv]

/-- Replacing one list element changes a mapped sum by the difference of
the images. -/
theorem sum_map_set_visits {B : Type} (ch : List (MTree B)) (k : Nat)
    (hk : k < ch.length) (c2 : MTree B) :
    ((ch.set k c2).map MTree.visits).sum + (ch.get ⟨k, hk⟩).visits
      = (ch.map MTree.visits).sum + c2.visits := by
  induction ch generalizing k with
  | nil => simp at hk
  | cons a as ih =>
    cases k with
    | zero => simp [List.set]; omega
    | succ n =>
      have hn : n < as.length := by simpa using hk
      have h1 := ih n hn
      simp only [List.set, List.map, List.sum_cons, List.get]
      omega

/-- `step` preserves the conservation invariant. -/
theorem step_balanced {B : Type} (E : Ext B) (color : Nat)
    (sel : Nat → List (MTree B) → Nat) (roll : B → Nat → Int) :
    ∀ t : MTree B, Balanced t → Balanced (step E color sel roll t).1 := by
  refine MTree.indOn ?_
  intro b p m u ch w v sc IH hbal
  obtain ⟨hch, hsum⟩ := by
    cases hbal with
    | node hch hsum => exact And.intro hch hsum
  rw [step]
  split
  · next hcond =>
    refine Balanced.node ?_ ?_
    · intro c hc
      rcases List.mem_or_eq_of_mem_set hc with hc1 | hc2
      · exact hch c hc1
      · subst hc2
        exact IH _ (List.get_mem _ _ _) (hch _ (List.get_mem _ _ _))
    · have hget := (step_stats E color sel roll
        (ch.get ⟨sel v ch % ch.length, Nat.mod_lt _ hcond.2⟩)).1
      have hset := sum_map_set_visits ch (sel v ch % ch.length)
        (Nat.mod_lt _ hcond.2)
        (step E color sel roll (ch.get ⟨sel v ch % ch.length, Nat.mod_lt _ hcond.2⟩)).1
      simp only [Fin.val_mk] at hset ⊢
      omega
  · split
    · next hcond =>
      refine Balanced.node ?_ ?_
      · intro c hc
        rcases List.mem_append.mp hc with hc1 | hc2
        · exact hch c hc1
        · have : c = MTree.node (E.makeMove b (u.getLast hcond.1) p) (opp p)
              (some (u.getLast hcond.1))
              (getAllMovesE E (E.makeMove b (u.getLast hcond.1) p) (opp p)) []
              (rew color (roll (E.makeMove b (u.getLast hcond.1) p) (opp p))) 1 1 := by
            simpa using hc2
          subst this
          exact Balanced.node (by simp) (by simp [MTree.visits])
      · simp only [List.map_append, List.sum_append, List.map_cons, List.sum_cons,
          MTree.visits, List.map_nil, List.sum_nil]
        omega
    · refine Balanced.node hch ?_
      omega

/-- `run` preserves the conservation invariant and adds exactly one visit
to the node it is run from per iteration. -/
theorem run_balanced_visits {B : Type} (E : Ext B) (color : Nat)
    (sel : Nat → List (MTree B) → Nat) :
    ∀ (os : List (B → Nat → Int)) (t : MTree B), Balanced t →
      Balanced (run E color sel os t) ∧
      (run E color sel os t).visits = t.visits + os.length := by
  intro os
  induction os with
  | nil => intro t h; simpa [run] using h
  | cons r rs ih =>
    intro t h
    have h1 := step_balanced E color sel r t h
    have h2 := (step_stats E color sel r t).1
    obtain ⟨hb, hv⟩ := ih _ h1
    refine ⟨by simpa [run] using hb, ?_⟩
    simp only [run, List.length_cons]
    omega

/-- The fresh root node is balanced. -/
theorem mkNode_balanced {B : Type} (E : Ext B) (b : B) (p : Nat) (m : Option Mv) :
    Balanced (mkNode E b p m) :=
  Balanced.node (by simp) (by simp)

/-- C2: backpropagation walks exactly the chain from the rollout start node
back to the root: each `step` adds exactly 1 to the visit count and exactly
`rew` of the rollout winner — 1 for a root-player win, 1/2 for a draw, 0
otherwise, always from the root player's perspective — to the win value of
every node on the chain (stated here at the root, which lies on every
chain, together with the conservation invariant that propagates the same
increment structure downwards).  Consequently after any number of
iterations the root's visit count equals the number of iterations, and
every node's visit count equals the sum of its children's visit counts plus
the number of rollouts started at the node itself. -/
theorem c2_backprop_conservation {B : Type} (E : Ext B) (color : Nat)
    (sel : Nat → List (MTree B) → Nat) (os : List (B → Nat → Int)) (b : B) :
    (run E color sel os (mkNode E b color none)).visits = os.length ∧
    Balanced (run E color sel os (mkNode E b color none)) ∧
    (∀ (roll : B → Nat → Int) (t : MTree B),
      (step E color sel roll t).1.visits = t.visits + 1 ∧
      (step E color sel roll t).1.wins
        = t.wins + rew color (step E color sel roll t).2 ∧
      (Balanced t → Balanced (step E color sel roll t).1)) := by
  obtain ⟨hb, hv⟩ := run_balanced_visits E color sel os (mkNode E b color none)
    (mkNode_balanced E b color none)
  refine ⟨by simpa [mkNode, MTree.visits] using hv, hb, ?_⟩
  intro roll t
  have h := step_stats E color sel roll t
  exact ⟨h.1, h.2.1, step_balanced E color sel roll t⟩

/-- Witness for C2: the invariant instantiated on a concrete engine, with
the inner conservation implication discharged at the fresh root. -/
theorem c2_backprop_conservation_witness :
    Balanced (run emptyExt 1 (fun _ _ => 0) [] (mkNode emptyExt () 1 none)) ∧
    Balanced ((step emptyExt 1 (fun _ _ => 0) (fun _ _ => 0)
      (mkNode emptyExt () 1 none)).1) := by
  have h := c2_backprop_conservation emptyExt 1 (fun _ _ => 0) [] ()
  exact ⟨h.2.1,
    (h.2.2 (fun _ _ => 0) (mkNode emptyExt () 1 none)).2.2
      (mkNode_balanced emptyExt () 1 none)⟩

/-- `s` is a node of the tree `t` (reflexive-transitive closure of the
child relation). -/
inductive SubNode {B : Type} : MTree B → MTree B → Prop where
  | refl (t : MTree B) : SubNode t t
  | child {s c t : MTree B} : c ∈ t.children → SubNode s c → SubNode s t

/-- `step` preserves the statistics invariant. -/
theorem step_winsOK {B : Type} (E : Ext B) (color : Nat)
    (sel : Nat → List (MTree B) → Nat) (roll : B → Nat → Int) :
    ∀ t : MTree B, WinsOK t → WinsOK (step E color sel roll t).1 := by
  refine MTree.indOn ?_
  intro b p m u ch w v sc IH hok
  obtain ⟨hch, hw0, hwv⟩ : (∀ c ∈ ch, WinsOK c) ∧ 0 ≤ w ∧ w ≤ (v : Rat) := by
    cases hok with
    | node hch hw0 hwv => exact ⟨hch, hw0, hwv⟩
  have hr0 : ∀ z, 0 ≤ rew color z := fun z => rew_nonneg color z
  have hr1 : ∀ z, rew color z ≤ 1 := fun z => rew_le_one color z
  rw [step]
  split
  · refine WinsOK.node ?_ ?_ ?_
    · intro c hc
      rcases List.mem_or_eq_of_mem_set hc with hc1 | hc2
      · exact hch c hc1
      · subst hc2
        exact IH _ (List.get_mem _ _ _) (hch _ (List.get_mem _ _ _))
    · exact add_nonneg hw0 (hr0 _)
    · push_cast
      exact add_le_add hwv (hr1 _)
  · split
    · next hcond =>
      refine WinsOK.node ?_ ?_ ?_
      · intro c hc
        rcases List.mem_append.mp hc with hc1 | hc2
        · exact hch c hc1
        · have hceq : c = MTree.node (E.makeMove b (u.getLast hcond.1) p) (opp p)
              (some (u.getLast hcond.1))
              (getAllMovesE E (E.makeMove b (u.getLast hcond.1) p) (opp p)) []
              (rew color (roll (E.makeMove b (u.getLast hcond.1) p) (opp p))) 1 1 := by
            simpa using hc2
          subst hceq
          refine WinsOK.node (by simp) (hr0 _) ?_
          simpa using hr1 _
      · have := hr0 (roll (E.makeMove b (u.getLast hcond.1) p) (opp p))
        linarith
      · have := hr1 (roll (E.makeMove b (u.getLast hcond.1) p) (opp p))
        push_cast
        linarith
    · refine WinsOK.node hch ?_ ?_
      · have := hr0 (roll b p)
        linarith
      · have := hr1 (roll b p)
        push_cast
        linarith

/-- `run` preserves the statistics invariant. -/
theorem run_winsOK {B : Type} (E : Ext B) (color : Nat)
    (sel : Nat → List (MTree B) → Nat) :
    ∀ (os : List (B → Nat → Int)) (t : MTree B), WinsOK t →
      WinsOK (run E color sel os t) := by
  intro os
  induction os with
  | nil => intro t h; simpa [run] using h
  | cons r rs ih =>
    intro t h
    have h1 := step_winsOK E color sel r t h
    simpa [run] using ih _ h1

/-- The statistics invariant is hereditary: it holds at every node of the
tree. -/
theorem winsOK_subNode {B : Type} {s t : MTree B} (ht : WinsOK t)
    (hs : SubNode s t) : WinsOK s := by
  induction hs with
  | refl => exact ht
  | child hc _ ih =>
    refine ih ?_
    cases ht with
    | node hch _ _ => exact hch _ hc

/-- C10: after any number of MCTS iterations every node of the search tree
satisfies `0 ≤ wins ≤ visits` (each backpropagation adds 1 to `visits` and
a value in {0, 1/2, 1} to `wins` of the same node), so the UCB1
exploitation term `wins / visits` lies in [0, 1] for every visited node. -/
theorem c10_wins_within_visits {B : Type} (E : Ext B) (color : Nat)
    (sel : Nat → List (MTree B) → Nat) (os : List (B → Nat → Int)) (b : B) :
    WinsOK (run E color sel os (mkNode E b color none)) ∧
    (∀ s, SubNode s (run E color sel os (mkNode E b color none)) → WinsOK s) ∧
    (∀ t : MTree B, WinsOK t → 0 < t.visits →
      0 ≤ t.wins / (t.visits : Rat) ∧ t.wins / (t.visits : Rat) ≤ 1) := by
  have hroot : WinsOK (mkNode E b color none) :=
    WinsOK.node (by simp) le_rfl (by simp)
  have hrun := run_winsOK E color sel os _ hroot
  refine ⟨hrun, fun s hs => winsOK_subNode hrun hs, ?_⟩
  intro t hok hpos
  cases hok with
  | node hch hw0 hwv =>
    rename_i b2 p2 m2 u2 ch2 w2 v2 sc2
    simp only [MTree.wins, MTree.visits] at hpos ⊢
    have hvq : (0 : Rat) < (v2 : Rat) := by exact_mod_cast hpos
    exact ⟨div_nonneg hw0 (le_of_lt hvq), (div_le_one hvq).mpr hwv⟩

/-- `step` keeps the untried moves and the children moves of the node it is
applied to inside the original legal move list. -/
theorem step_rootOK {B : Type} (E : Ext B) (color : Nat)
    (sel : Nat → List (MTree B) → Nat) (roll : B → Nat → Int)
    (flat : List Mv) (t : MTree B) (h : RootOK flat t) :
    RootOK flat (step E color sel roll t).1 := by
  obtain ⟨b, p, m, u, ch, w, v, sc⟩ := t
  obtain ⟨hu, hch⟩ := h
  simp only [RootOK, MTree.untried, MTree.children] at hu hch
  rw [step]
  split
  · refine ⟨?_, ?_⟩ <;> simp only [RootOK, MTree.untried, MTree.children]
    · exact hu
    · intro c hc
      rcases List.mem_or_eq_of_mem_set hc with hc1 | hc2
      · exact hch c hc1
      · subst hc2
        have hmem := List.get_mem ch _ (Nat.mod_lt (sel v ch) (by omega))
        obtain ⟨mm, hmm, hmmf⟩ := hch _ hmem
        refine ⟨mm, ?_, hmmf⟩
        rw [(step_stats E color sel roll _).2.2.2.2]
        exact hmm
  · split
    · next hcond =>
      refine ⟨?_, ?_⟩ <;> simp only [RootOK, MTree.untried, MTree.children]
      · intro x hx
        exact hu x ((List.dropLast_sublist u).subset hx)
      · intro c hc
        rcases List.mem_append.mp hc with hc1 | hc2
        · exact hch c hc1
        · have hceq : c = MTree.node (E.makeMove b (u.getLast hcond.1) p) (opp p)
              (some (u.getLast hcond.1))
              (getAllMovesE E (E.makeMove b (u.getLast hcond.1) p) (opp p)) []
              (rew color (roll (E.makeMove b (u.getLast hcond.1) p) (opp p))) 1 1 := by
            simpa using hc2
          subst hceq
          exact ⟨u.getLast hcond.1, rfl, hu _ (List.getLast_mem hcond.1)⟩
    · exact ⟨hu, hch⟩

/-- `run` keeps the root bookkeeping. -/
theorem run_rootOK {B : Type} (E : Ext B) (color : Nat)
    (sel : Nat → List (MTree B) → Nat) (flat : List Mv) :
    ∀ (os : List (B → Nat → Int)) (t : MTree B), RootOK flat t →
      RootOK flat (run E color sel os t) := by
  intro os
  induction os with
  | nil => intro t h; simpa [run] using h
  | cons r rs ih =>
    intro t h
    simpa [run] using ih _ (step_rootOK E color sel r flat t h)

/-- Python's `max(children, key=visits)`: the result is a member of the
list and its visit count dominates every member's. -/
theorem maxVisitsChild_spec {B : Type} (ch : List (MTree B)) (hne : ch ≠ []) :
    ∃ c, maxVisitsChild ch = some c ∧ c ∈ ch ∧ ∀ x ∈ ch, x.visits ≤ c.visits := by
  have haux : ∀ (cs : List (MTree B)) (acc : MTree B),
      (cs.foldl (fun best x => if best.visits < x.visits then x else best) acc = acc ∨
        cs.foldl (fun best x => if best.visits < x.visits then x else best) acc ∈ cs) ∧
      acc.visits ≤ (cs.foldl (fun best x => if best.visits < x.visits then x else best) acc).visits ∧
      ∀ x ∈ cs, x.visits ≤ (cs.foldl (fun best x => if best.visits < x.visits then x else best) acc).visits := by
    intro cs
    induction cs with
    | nil => intro acc; simp
    | cons a as ih =>
      intro acc
      simp only [List.foldl_cons]
      obtain ⟨hmem, hacc, hall⟩ := ih (if acc.visits < a.visits then a else acc)
      have hle : acc.visits ≤ (if acc.visits < a.visits then a else acc).visits := by
        split <;> omega
      have hlea : a.visits ≤ (if acc.visits < a.visits then a else acc).visits := by
        split
        · exact le_rfl
        · omega
      refine ⟨?_, le_trans hle hacc, ?_⟩
      · rcases hmem with hm1 | hm2
        · rw [hm1]
          split
          · exact Or.inr (List.mem_cons_self _ _)
          · exact Or.inl rfl
        · exact Or.inr (List.mem_cons_of_mem _ hm2)
      · intro x hx
        rcases List.mem_cons.mp hx with hx1 | hx2
        · subst hx1
          exact le_trans hlea hacc
        · exact hall x hx2
  match ch, hne with
  | c0 :: cs, _ =>
    obtain ⟨hmem, hacc, hall⟩ := haux cs c0
    refine ⟨_, rfl, ?_, ?_⟩
    · rcases hmem with hm1 | hm2
      · rw [hm1]; exact List.mem_cons_self _ _
      · exact List.mem_cons_of_mem _ hm2
    · intro x hx
      rcases List.mem_cons.mp hx with hx1 | hx2
      · subst hx1; exact hacc
      · exact hall x hx2

/-- The fresh root satisfies the root bookkeeping for its own legal move
list. -/
theorem mkNode_rootOK {B : Type} (E : Ext B) (b : B) (p : Nat) :
    RootOK (getAllMovesE E b p) (mkNode E b p none) := by
  refine ⟨fun m hm => ?_, by simp [mkNode, MTree.children]⟩
  simpa [mkNode, MTree.untried] using hm

/-- C9: with at least two legal moves (the search branch of `get_move`),
the move returned at the end of the MCTS budget is always one of the legal
moves and never the empty resignation sentinel; when the root has children
it is the move of a root child of maximal visit count, and when the root
has no children (no completed iteration) it is the first legal move. -/
theorem c9_robust_child_selection {B : Type} (E : Ext B)
    (sel : Nat → List (MTree B) → Nat) (os : List (B → Nat → Int))
    (board : B) (color : Nat) (move : Mv) (m1 m2 : Mv) (rest : List Mv)
    (hflat : (E.getAllPossibleMoves (afterOpp E board color move) color).flatten
      = m1 :: m2 :: rest)
    (hmv : ∀ x ∈ m1 :: m2 :: rest, x ≠ ([] : Mv)) :
    (getMoveMCTS E sel os board color move).1 ∈ m1 :: m2 :: rest ∧
    (getMoveMCTS E sel os board color move).1 ≠ [] ∧
    ((run E color sel os
        (mkNode E (afterOpp E board color move) color none)).children = [] →
      (getMoveMCTS E sel os board color move).1 = m1) ∧
    ((run E color sel os
        (mkNode E (afterOpp E board color move) color none)).children ≠ [] →
      ∃ c ∈ (run E color sel os
          (mkNode E (afterOpp E board color move) color none)).children,
        c.mv = some (getMoveMCTS E sel os board color move).1 ∧
        ∀ x ∈ (run E color sel os
            (mkNode E (afterOpp E board color move) color none)).children,
          x.visits ≤ c.visits) := by
  have hg : E.getAllPossibleMoves (afterOpp E board color move) color ≠ [] := by
    intro he
    rw [he] at hflat
    simp at hflat
  have hroot : RootOK (m1 :: m2 :: rest)
      (mkNode E (afterOpp E board color move) color none) := by
    have h0 := mkNode_rootOK E (afterOpp E board color move) color
    rwa [getAllMovesE, hflat] at h0
  have hrun := run_rootOK E color sel (m1 :: m2 :: rest) os _ hroot
  have hget : (getMoveMCTS E sel os board color move).1 =
      match maxVisitsChild (run E color sel os
        (mkNode E (afterOpp E board color move) color none)).children with
      | none => (m1 :: m2 :: rest).headD []
      | some c => c.mv.getD [] := by
    simp only [getMoveMCTS, if_neg hg, hflat]
  by_cases hch : (run E color sel os
      (mkNode E (afterOpp E board color move) color none)).children = []
  · have hchosen : (getMoveMCTS E sel os board color move).1 = m1 := by
      rw [hget, hch]
      simp [maxVisitsChild]
    refine ⟨by rw [hchosen]; exact List.mem_cons_self _ _,
      by rw [hchosen]; exact hmv m1 (List.mem_cons_self _ _),
      fun _ => hchosen, fun hne => absurd hch hne⟩
  · obtain ⟨c, hsome, hcmem, hcmax⟩ := maxVisitsChild_spec _ hch
    obtain ⟨mm, hmm, hmmf⟩ := hrun.2 c hcmem
    have hchosen : (getMoveMCTS E sel os board color move).1 = mm := by
      rw [hget, hsome]
      show c.mv.getD [] = mm
      rw [hmm]
      rfl
    refine ⟨by rw [hchosen]; exact hmmf,
      by rw [hchosen]; exact hmv mm hmmf, fun habs => absurd habs hch, fun _ => ?_⟩
    exact ⟨c, hcmem, by rw [hchosen]; exact hmm, hcmax⟩

/-- Witness for C9: a concrete two-move engine run for one iteration; the
root has a child and the returned move is that child's move, of maximal
visit count. -/
theorem c9_robust_child_selection_witness :
    (getMoveMCTS twoMoveExt (fun _ _ => 0) [fun _ _ => 0] () 1 []).1
      ∈ [[(0, 0), (1, 1)], [(0, 0), (2, 2)]] ∧
    (∃ c ∈ (run twoMoveExt 1 (fun _ _ => 0) [fun _ _ => 0]
        (mkNode twoMoveExt (afterOpp twoMoveExt () 1 []) 1 none)).children,
      c.mv = some (getMoveMCTS twoMoveExt (fun _ _ => 0) [fun _ _ => 0] () 1 []).1 ∧
      ∀ x ∈ (run twoMoveExt 1 (fun _ _ => 0) [fun _ _ => 0]
          (mkNode twoMoveExt (afterOpp twoMoveExt () 1 []) 1 none)).children,
        x.visits ≤ c.visits) := by
  have h1 : mkNode twoMoveExt (afterOpp twoMoveExt () 1 []) 1 none
      = MTree.node () 1 none [[(0, 0), (1, 1)], [(0, 0), (2, 2)]] [] 0 0 0 := rfl
  have hch : (run twoMoveExt 1 (fun _ _ => 0) [fun _ _ => 0]
      (mkNode twoMoveExt (afterOpp twoMoveExt () 1 []) 1 none)).children ≠ [] := by
    rw [h1]
    simp only [run]
    rw [step]
    rw [dif_neg (by simp)]
    rw [dif_pos ⟨by simp, rfl, rfl⟩]
    simp [MTree.children]
  have h := c9_robust_child_selection twoMoveExt (fun _ _ => 0) [fun _ _ => 0]
    () 1 [] [(0, 0), (1, 1)] [(0, 0), (2, 2)] [] (by decide) (by decide)
  exact ⟨h.1, h.2.2.2 hch⟩

/-- Witness for C10: concrete instantiation, with the per-node bound
discharged at a node with one visit and a draw credited. -/
theorem c10_wins_within_visits_witness :
    WinsOK (run emptyExt 1 (fun _ _ => 0) [] (mkNode emptyExt () 1 none)) ∧
    (0 ≤ (MTree.node () 1 none [] [] (1 / 2 : Rat) 1 0 : MTree Unit).wins
        / ((MTree.node () 1 none [] [] (1 / 2 : Rat) 1 0 : MTree Unit).visits : Rat) ∧
      (MTree.node () 1 none [] [] (1 / 2 : Rat) 1 0 : MTree Unit).wins
        / ((MTree.node () 1 none [] [] (1 / 2 : Rat) 1 0 : MTree Unit).visits : Rat) ≤ 1) := by
  have h := c10_wins_within_visits emptyExt 1 (fun _ _ => 0) [] ()
  refine ⟨h.1, h.2.2 _ ?_ (by simp [MTree.visits])⟩
  exact WinsOK.node (by simp) (by norm_num) (by simp [MTree.visits]; norm_num)

theorem toE_le_iff {a b : Int} : toE a ≤ toE b ↔ a ≤ b := by
  simp [toE]

theorem toE_lt_iff {a b : Int} : toE a < toE b ↔ a < b := by
  simp [toE]

theorem bot_lt_toE (n : Int) : (⊥ : EInt) < toE n := WithBot.bot_lt_coe _

theorem toE_lt_top (n : Int) : toE n < (⊤ : EInt) := by
  have h : ((⊤ : WithTop Int) : EInt) = (⊤ : EInt) := rfl
  rw [← h]
  exact WithBot.coe_lt_coe.mpr (WithTop.coe_lt_top n)

theorem toE_ne_bot (n : Int) : toE n ≠ (⊥ : EInt) :=
  ne_of_gt (bot_lt_toE n)

theorem toE_max (a b : Int) : max (toE a) (toE b) = toE (max a b) := by
  rcases le_total a b with h | h
  · rw [max_eq_right h, max_eq_right (toE_le_iff.mpr h)]
  · rw [max_eq_left h, max_eq_left (toE_le_iff.mpr h)]

theorem approx_self (x al bt : EInt) : Approx x al bt x :=
  ⟨fun _ => le_rfl, fun _ _ => rfl, fun _ => le_rfl⟩

theorem approx_full {x v : EInt} (h : Approx x ⊥ ⊤ v) : v = x := by
  obtain ⟨h1, h2, h3⟩ := h
  rcases le_or_lt v ⊥ with hb | hb
  · have hvb : v = ⊥ := le_bot_iff.mp hb
    have hxb : x = ⊥ := le_bot_iff.mp (hvb ▸ h1 hb)
    rw [hvb, hxb]
  · rcases le_or_lt (⊤ : EInt) v with ht | ht
    · have hvt : v = ⊤ := top_le_iff.mp ht
      have hxt : x = ⊤ := top_le_iff.mp (hvt ▸ h3 ht)
      rw [hvt, hxt]
    · exact h2 hb ht

theorem foldl_max_acc {M : Type} (X : M → EInt) (ms : List M) :
    ∀ a b : EInt,
      ms.foldl (fun acc mv => max acc (X mv)) (max a b)
        = max a (ms.foldl (fun acc mv => max acc (X mv)) b) := by
  induction ms with
  | nil => intro a b; simp
  | cons mv ms ih =>
    intro a b
    simp only [List.foldl_cons]
    rw [max_assoc, ih]

theorem foldl_min_acc {M : Type} (X : M → EInt) (ms : List M) :
    ∀ a b : EInt,
      ms.foldl (fun acc mv => min acc (X mv)) (min a b)
        = min a (ms.foldl (fun acc mv => min acc (X mv)) b) := by
  induction ms with
  | nil => intro a b; simp
  | cons mv ms ih =>
    intro a b
    simp only [List.foldl_cons]
    rw [min_assoc, ih]

theorem foldl_max_decomp {M : Type} (X : M → EInt) (ms : List M) (a : EInt) :
    ms.foldl (fun acc mv => max acc (X mv)) a
      = max a (ms.foldl (fun acc mv => max acc (X mv)) ⊥) := by
  have h : max a (⊥ : EInt) = a := max_eq_left bot_le
  rw [← foldl_max_acc, h]

theorem foldl_min_decomp {M : Type} (X : M → EInt) (ms : List M) (a : EInt) :
    ms.foldl (fun acc mv => min acc (X mv)) a
      = min a (ms.foldl (fun acc mv => min acc (X mv)) ⊤) := by
  have h : min a (⊤ : EInt) = a := min_eq_left le_top
  rw [← foldl_min_acc, h]

theorem foldl_max_ge {M : Type} (X : M → EInt) :
    ∀ (ms : List M) (a : EInt), a ≤ ms.foldl (fun acc mv => max acc (X mv)) a := by
  intro ms
  induction ms with
  | nil => intro a; simp
  | cons mv ms ih =>
    intro a
    simp only [List.foldl_cons]
    exact le_trans (le_max_left _ _) (ih _)

theorem foldl_min_le {M : Type} (X : M → EInt) :
    ∀ (ms : List M) (a : EInt), ms.foldl (fun acc mv => min acc (X mv)) a ≤ a := by
  intro ms
  induction ms with
  | nil => intro a; simp
  | cons mv ms ih =>
    intro a
    simp only [List.foldl_cons]
    exact le_trans (ih _) (min_le_left _ _)

theorem foldl_max_finite {M : Type} (X : M → EInt) :
    ∀ (ms : List M) (a : EInt), (∀ mv ∈ ms, ∃ n, X mv = toE n) →
      ((∃ n, a = toE n) ∨ (a = ⊥ ∧ ms ≠ [])) →
      ∃ n, ms.foldl (fun acc mv => max acc (X mv)) a = toE n := by
  intro ms
  induction ms with
  | nil =>
    intro a _ h
    rcases h with h | h
    · simpa using h
    · exact absurd rfl h.2
  | cons mv ms ih =>
    intro a hX h
    obtain ⟨nc, hnc⟩ := hX mv (List.mem_cons_self _ _)
    simp only [List.foldl_cons]
    have hfin : ∃ n, max a (X mv) = toE n := by
      rcases h with ⟨k, hk⟩ | ⟨hk, _⟩
      · exact ⟨max k nc, by rw [hk, hnc, toE_max]⟩
      · exact ⟨nc, by rw [hk, hnc]; exact max_eq_right bot_le⟩
    exact ih _ (fun x hx => hX x (List.mem_cons_of_mem _ hx)) (Or.inl hfin)

theorem foldl_min_finite {M : Type} (X : M → EInt) :
    ∀ (ms : List M) (a : EInt), (∀ mv ∈ ms, ∃ n, X mv = toE n) →
      ((∃ n, a = toE n) ∨ (a = ⊤ ∧ ms ≠ [])) →
      ∃ n, ms.foldl (fun acc mv => min acc (X mv)) a = toE n := by
  intro ms
  induction ms with
  | nil =>
    intro a _ h
    rcases h with h | h
    · simpa using h
    · exact absurd rfl h.2
  | cons mv ms ih =>
    intro a hX h
    obtain ⟨nc, hnc⟩ := hX mv (List.mem_cons_self _ _)
    simp only [List.foldl_cons]
    have hfin : ∃ n, min a (X mv) = toE n := by
      rcases h with ⟨k, hk⟩ | ⟨hk, _⟩
      · refine ⟨min k nc, ?_⟩
        rw [hk, hnc]
        rcases le_total k nc with hle | hle
        · rw [min_eq_left (toE_le_iff.mpr hle), min_eq_left hle]
        · rw [min_eq_right (toE_le_iff.mpr hle), min_eq_right hle]
      · exact ⟨nc, by rw [hk, hnc]; exact min_eq_right le_top⟩
    exact ih _ (fun x hx => hX x (List.mem_cons_of_mem _ hx)) (Or.inl hfin)

theorem maxGo_ge {B M : Type} (f : B → EInt → EInt → EInt) (app : B → M → B) (b : B) :
    ∀ (ms : List M) (v al bt : EInt), v ≤ maxGo f app b ms v al bt := by
  intro ms
  induction ms with
  | nil => intro v al bt; simp [maxGo]
  | cons mv ms ih =>
    intro v al bt
    simp only [maxGo]
    split
    · exact le_max_left _ _
    · exact le_trans (le_max_left _ _) (ih _ _ _)

theorem minGo_le {B M : Type} (f : B → EInt → EInt → EInt) (app : B → M → B) (b : B) :
    ∀ (ms : List M) (v al bt : EInt), minGo f app b ms v al bt ≤ v := by
  intro ms
  induction ms with
  | nil => intro v al bt; simp [minGo]
  | cons mv ms ih =>
    intro v al bt
    simp only [minGo]
    split
    · exact min_le_left _ _
    · exact le_trans (ih _ _ _) (min_le_left _ _)

/-- Fail-soft correctness of the `_max_value` candidate loop: if the
recursive evaluator is a fail-soft approximation of the exact child values
at every window, then the loop result is a fail-soft approximation of the
fold of the exact child values over the running maximum. -/
theorem maxGo_approx {B M : Type} (f : B → EInt → EInt → EInt) (X : B → EInt)
    (app : B → M → B) (b : B)
    (hf : ∀ (mv : M) (al bt : EInt), al < bt →
      Approx (X (app b mv)) al bt (f (app b mv) al bt)) :
    ∀ (ms : List M) (v al bt : EInt), al < bt → v ≤ al →
      Approx (ms.foldl (fun acc mv => max acc (X (app b mv))) v) al bt
        (maxGo f app b ms v al bt) := by
  intro ms
  induction ms with
  | nil =>
    intro v al bt _ _
    simp only [List.foldl_nil, maxGo]
    exact approx_self _ _ _
  | cons mv ms ih =>
    intro v al bt hab hva
    obtain ⟨hf1, hf2, hf3⟩ := hf mv al bt hab
    simp only [List.foldl_cons, maxGo]
    by_cases hbr : bt ≤ max v (f (app b mv) al bt)
    · rw [if_pos hbr]
      have hvc : max v (f (app b mv) al bt) = f (app b mv) al bt := by
        rcases max_choice v (f (app b mv) al bt) with h1 | h1
        · exfalso
          rw [h1] at hbr
          exact absurd (lt_of_lt_of_le hab (le_trans hbr hva)) (lt_irrefl al)
        · exact h1
      rw [hvc] at hbr ⊢
      refine ⟨fun h => ?_, fun h1 h2 => ?_, fun _ => ?_⟩
      · exact absurd (lt_of_lt_of_le (lt_of_lt_of_le hab hbr) h) (lt_irrefl al)
      · exact absurd (lt_of_lt_of_le h2 hbr) (lt_irrefl _)
      · exact le_trans (hf3 hbr)
          (le_trans (le_max_right v (X (app b mv))) (foldl_max_ge _ _ _))
    · rw [if_neg hbr]
      have hvlt : max v (f (app b mv) al bt) < bt := not_le.mp hbr
      have hal2 : max al (max v (f (app b mv) al bt)) < bt := max_lt hab hvlt
      have IH := ih (max v (f (app b mv) al bt))
        (max al (max v (f (app b mv) al bt))) bt hal2 (le_max_right _ _)
      set r := maxGo f app b ms (max v (f (app b mv) al bt))
        (max al (max v (f (app b mv) al bt))) bt with hrdef
      have hger : max v (f (app b mv) al bt) ≤ r := maxGo_ge _ _ _ _ _ _ _
      rw [foldl_max_decomp (fun mv2 => X (app b mv2)) ms] at IH ⊢
      set T := ms.foldl (fun acc mv2 => max acc (X (app b mv2))) (⊥ : EInt) with hTdef
      rcases le_or_lt (f (app b mv) al bt) al with hca | hca
      · have hMcle : X (app b mv) ≤ f (app b mv) al bt := hf1 hca
        have hvca : max v (f (app b mv) al bt) ≤ al := max_le hva hca
        have hMca : max v (X (app b mv)) ≤ al := max_le hva (le_trans hMcle hca)
        have hal2eq : max al (max v (f (app b mv) al bt)) = al := max_eq_left hvca
        rw [hal2eq] at IH
        obtain ⟨IH1, IH2, IH3⟩ := IH
        refine ⟨fun h => ?_, fun h1 h2 => ?_, fun h => ?_⟩
        · obtain ⟨h5a, h5b⟩ := max_le_iff.mp (IH1 h)
          refine max_le (max_le ?_ ?_) h5b
          · exact le_trans (le_max_left _ _) h5a
          · exact le_trans hMcle (le_trans (le_max_right _ _) h5a)
        · have h5 := IH2 h1 h2
          have h4 : r = T := by
            rcases max_choice (max v (f (app b mv) al bt)) T with he | he
            · rw [he] at h5
              have h6 : r ≤ al := by rw [h5]; exact hvca
              exact absurd (lt_of_lt_of_le h1 h6) (lt_irrefl al)
            · rw [he] at h5; exact h5
          have h6 : max v (X (app b mv)) ≤ T :=
            le_trans hMca (le_of_lt (h4 ▸ h1))
          rw [h4, max_eq_right h6]
        · have h5 := IH3 h
          rcases max_choice (max v (f (app b mv) al bt)) T with he | he
          · rw [he] at h5
            exact absurd (lt_of_lt_of_le hab (le_trans h (le_trans h5 hvca)))
              (lt_irrefl al)
          · rw [he] at h5
            exact le_trans h5 (le_max_right _ _)
      · have hvceq : max v (f (app b mv) al bt) = f (app b mv) al bt :=
          max_eq_right (le_of_lt (lt_of_le_of_lt hva hca))
        have hcbt : f (app b mv) al bt < bt :=
          lt_of_le_of_lt (le_max_right v _) hvlt
        have hceq : f (app b mv) al bt = X (app b mv) := hf2 hca hcbt
        have hXacc : max v (X (app b mv)) = f (app b mv) al bt := by
          rw [← hceq]; exact hvceq
        have halr : al < r := by
          refine lt_of_lt_of_le ?_ hger
          rw [hvceq]
          exact hca
        rcases lt_or_eq_of_le hger with hgt | heq
        · have hal2lt : max al (max v (f (app b mv) al bt)) < r :=
            max_lt halr hgt
          obtain ⟨IH1, IH2, IH3⟩ := IH
          refine ⟨fun h => ?_, fun h1 h2 => ?_, fun h => ?_⟩
          · exact absurd (lt_of_lt_of_le halr h) (lt_irrefl al)
          · have h5 := IH2 hal2lt h2
            rw [hvceq] at h5
            rw [hXacc]
            exact h5
          · have h5 := IH3 h
            rw [hvceq] at h5
            rw [hXacc]
            exact h5
        · obtain ⟨IH1, IH2, IH3⟩ := IH
          refine ⟨fun h => ?_, fun h1 h2 => ?_, fun h => ?_⟩
          · exact absurd (lt_of_lt_of_le halr h) (lt_irrefl al)
          · have hle : r ≤ max al (max v (f (app b mv) al bt)) := by
              rw [← heq]
              exact le_max_right _ _
            have h5 := IH1 hle
            have h6 : T ≤ r := le_trans (le_max_right _ _) h5
            rw [hXacc]
            have h7 : f (app b mv) al bt = r := by rw [← hvceq, heq]
            rw [h7]
            exact (max_eq_left h6).symm
          · rw [hXacc]
            have h7 : f (app b mv) al bt = r := by rw [← hvceq, heq]
            rw [h7]
            exact le_max_left _ _

/-- Fail-soft correctness of the `_min_value` candidate loop, the order
dual of `maxGo_approx`. -/
theorem minGo_approx {B M : Type} (f : B → EInt → EInt → EInt) (X : B → EInt)
    (app : B → M → B) (b : B)
    (hf : ∀ (mv : M) (al bt : EInt), al < bt →
      Approx (X (app b mv)) al bt (f (app b mv) al bt)) :
    ∀ (ms : List M) (v al bt : EInt), al < bt → bt ≤ v →
      Approx (ms.foldl (fun acc mv => min acc (X (app b mv))) v) al bt
        (minGo f app b ms v al bt) := by
  intro ms
  induction ms with
  | nil =>
    intro v al bt _ _
    simp only [List.foldl_nil, minGo]
    exact approx_self _ _ _
  | cons mv ms ih =>
    intro v al bt hab hvb
    obtain ⟨hf1, hf2, hf3⟩ := hf mv al bt hab
    simp only [List.foldl_cons, minGo]
    by_cases hbr : min v (f (app b mv) al bt) ≤ al
    · rw [if_pos hbr]
      have hvc : min v (f (app b mv) al bt) = f (app b mv) al bt := by
        rcases min_choice v (f (app b mv) al bt) with h1 | h1
        · exfalso
          rw [h1] at hbr
          exact absurd (lt_of_lt_of_le hab (le_trans hvb hbr)) (lt_irrefl al)
        · exact h1
      rw [hvc] at hbr ⊢
      refine ⟨fun _ => ?_, fun h1 h2 => ?_, fun h => ?_⟩
      · exact le_trans (foldl_min_le _ _ _)
          (le_trans (min_le_right v (X (app b mv))) (hf1 hbr))
      · exact absurd (lt_of_lt_of_le h1 hbr) (lt_irrefl _)
      · exact absurd (lt_of_le_of_lt (le_trans h hbr) hab) (lt_irrefl _)
    · rw [if_neg hbr]
      have hvgt : al < min v (f (app b mv) al bt) := not_le.mp hbr
      have hbt2 : al < min bt (min v (f (app b mv) al bt)) := lt_min hab hvgt
      have IH := ih (min v (f (app b mv) al bt)) al
        (min bt (min v (f (app b mv) al bt))) hbt2 (min_le_right _ _)
      set r := minGo f app b ms (min v (f (app b mv) al bt)) al
        (min bt (min v (f (app b mv) al bt))) with hrdef
      have hler : r ≤ min v (f (app b mv) al bt) := minGo_le _ _ _ _ _ _ _
      rw [foldl_min_decomp (fun mv2 => X (app b mv2)) ms] at IH ⊢
      set T := ms.foldl (fun acc mv2 => min acc (X (app b mv2))) (⊤ : EInt) with hTdef
      rcases le_or_lt bt (f (app b mv) al bt) with hcb | hcb
      · have hMcge : f (app b mv) al bt ≤ X (app b mv) := hf3 hcb
        have hvcb : bt ≤ min v (f (app b mv) al bt) := le_min hvb hcb
        have hMcb : bt ≤ min v (X (app b mv)) :=
          le_min hvb (le_trans hcb hMcge)
        have hbt2eq : min bt (min v (f (app b mv) al bt)) = bt := min_eq_left hvcb
        rw [hbt2eq] at IH
        obtain ⟨IH1, IH2, IH3⟩ := IH
        refine ⟨fun h => ?_, fun h1 h2 => ?_, fun h => ?_⟩
        · have h5 := IH1 h
          rcases min_choice (min v (f (app b mv) al bt)) T with he | he
          · rw [he] at h5
            exact absurd (lt_of_le_of_lt (le_trans hvcb (le_trans h5 h)) hab)
              (lt_irrefl _)
          · rw [he] at h5
            exact le_trans (min_le_right _ _) h5
        · have h5 := IH2 h1 h2
          have h4 : r = T := by
            rcases min_choice (min v (f (app b mv) al bt)) T with he | he
            · rw [he] at h5
              have h6 : bt ≤ r := by rw [h5]; exact hvcb
              exact absurd (lt_of_le_of_lt h6 h2) (lt_irrefl bt)
            · rw [he] at h5; exact h5
          have h6 : T ≤ min v (X (app b mv)) :=
            le_trans (le_of_lt (h4 ▸ h2)) hMcb
          rw [h4, min_eq_right h6]
        · obtain ⟨h5a, h5b⟩ := le_min_iff.mp (IH3 h)
          refine le_min (le_min ?_ ?_) h5b
          · exact le_trans h5a (min_le_left _ _)
          · exact le_trans (le_trans h5a (min_le_right _ _)) hMcge
      · have hvceq : min v (f (app b mv) al bt) = f (app b mv) al bt :=
          min_eq_right (le_of_lt (lt_of_lt_of_le hcb hvb))
        have hceq : f (app b mv) al bt = X (app b mv) := by
          refine hf2 ?_ hcb
          rw [← hvceq]
          exact hvgt
        have hXacc : min v (X (app b mv)) = f (app b mv) al bt := by
          rw [← hceq]; exact hvceq
        have hrlt : r < bt := by
          refine lt_of_le_of_lt hler ?_
          rw [hvceq]
          exact hcb
        rcases lt_or_eq_of_le hler with hlt2 | heq2
        · have hbt2lt : r < min bt (min v (f (app b mv) al bt)) := lt_min hrlt hlt2
          obtain ⟨IH1, IH2, IH3⟩ := IH
          refine ⟨fun h => ?_, fun h1 h2 => ?_, fun h => ?_⟩
          · have h5 := IH1 h
            rw [hvceq] at h5
            rw [hXacc]
            exact h5
          · have h5 := IH2 h1 hbt2lt
            rw [hvceq] at h5
            rw [hXacc]
            exact h5
          · exact absurd (lt_of_le_of_lt h hrlt) (lt_irrefl bt)
        · obtain ⟨IH1, IH2, IH3⟩ := IH
          have halr : al < r := by rw [heq2]; exact hvgt
          refine ⟨fun h => ?_, fun h1 h2 => ?_, fun h => ?_⟩
          · exact absurd (lt_of_lt_of_le halr h) (lt_irrefl al)
          · have hle : min bt (min v (f (app b mv) al bt)) ≤ r := by
              rw [heq2]
              exact min_le_right _ _
            have h5 := IH3 hle
            have h6 : r ≤ T := le_trans h5 (min_le_right _ _)
            rw [hXacc]
            have h7 : f (app b mv) al bt = r := by
              rw [← hvceq]
              exact heq2.symm
            rw [h7]
            exact (min_eq_left h6).symm
          · exact absurd (lt_of_le_of_lt h hrlt) (lt_irrefl bt)

/-- `_max_value` / `_min_value` are fail-soft approximations of the
exhaustive minimax recursion at every depth and search window. -/
theorem ab_approx {B M : Type} (g : Game B M) :
    ∀ d : Nat,
      (∀ (bd : B) (al bt : EInt), al < bt →
        Approx ((exhaust g d).1 bd) al bt ((abPy g d).1 bd al bt)) ∧
      (∀ (bd : B) (al bt : EInt), al < bt →
        Approx ((exhaust g d).2 bd) al bt ((abPy g d).2 bd al bt)) := by
  intro d
  induction d with
  | zero =>
    exact ⟨fun bd al bt _ => approx_self _ _ _, fun bd al bt _ => approx_self _ _ _⟩
  | succ d ih =>
    constructor
    · intro bd al bt hab
      simp only [abPy, exhaust]
      cases hstop : g.maxStop bd with
      | true => exact approx_self _ _ _
      | false =>
        cases hm : g.maxMoves bd with
        | nil => exact approx_self _ _ _
        | cons mv ms =>
          exact maxGo_approx (abPy g d).2 (exhaust g d).2 g.applyMax bd
            (fun mv2 al2 bt2 h2 => ih.2 (g.applyMax bd mv2) al2 bt2 h2)
            (mv :: ms) ⊥ al bt hab bot_le
    · intro bd al bt hab
      simp only [abPy, exhaust]
      cases hstop : g.minStop bd with
      | true => exact approx_self _ _ _
      | false =>
        cases hm : g.minMoves bd with
        | nil => exact approx_self _ _ _
        | cons mv ms =>
          exact minGo_approx (abPy g d).1 (exhaust g d).1 g.applyMin bd
            (fun mv2 al2 bt2 h2 => ih.1 (g.applyMin bd mv2) al2 bt2 h2)
            (mv :: ms) ⊤ al bt hab le_top

/-- The exhaustive minimax value is always finite (an actual `_evaluate`
score): the fold of finitely many finite values from a sentinel is
finite. -/
theorem exhaust_finite {B M : Type} (g : Game B M) :
    ∀ d : Nat,
      (∀ bd, ∃ n : Int, (exhaust g d).1 bd = toE n) ∧
      (∀ bd, ∃ n : Int, (exhaust g d).2 bd = toE n) := by
  intro d
  induction d with
  | zero => exact ⟨fun bd => ⟨g.eval bd, rfl⟩, fun bd => ⟨g.eval bd, rfl⟩⟩
  | succ d ih =>
    constructor
    · intro bd
      simp only [exhaust]
      cases hstop : g.maxStop bd with
      | true => exact ⟨g.eval bd, rfl⟩
      | false =>
        cases hm : g.maxMoves bd with
        | nil => exact ⟨g.eval bd, rfl⟩
        | cons mv ms =>
          exact foldl_max_finite (fun mv2 => (exhaust g d).2 (g.applyMax bd mv2))
            (mv :: ms) ⊥ (fun x _ => ih.2 (g.applyMax bd x)) (Or.inr ⟨rfl, by simp⟩)
    · intro bd
      simp only [exhaust]
      cases hstop : g.minStop bd with
      | true => exact ⟨g.eval bd, rfl⟩
      | false =>
        cases hm : g.minMoves bd with
        | nil => exact ⟨g.eval bd, rfl⟩
        | cons mv ms =>
          exact foldl_min_finite (fun mv2 => (exhaust g d).1 (g.applyMin bd mv2))
            (mv :: ms) ⊤ (fun x _ => ih.1 (g.applyMin bd x)) (Or.inr ⟨rfl, by simp⟩)

/-- Over the full window, alpha-beta equals exhaustive minimax at every
depth and board. -/
theorem ab_eq_exhaust {B M : Type} (g : Game B M) (d : Nat) (bd : B) :
    (abPy g d).1 bd ⊥ ⊤ = (exhaust g d).1 bd ∧
    (abPy g d).2 bd ⊥ ⊤ = (exhaust g d).2 bd := by
  have hbt : (⊥ : EInt) < ⊤ := bot_lt_top
  exact ⟨approx_full ((ab_approx g d).1 bd ⊥ ⊤ hbt),
    approx_full ((ab_approx g d).2 bd ⊥ ⊤ hbt)⟩

/-- Correctness of the root loop of `get_move`: with `alpha` equal to the
running best score (which `get_move` maintains) and `beta = inf`, the loop
returns the exact maximum of the children's exhaustive values, and the
recorded best move (if any) attains it. -/
theorem rootGo_spec {B M : Type} (f : B → EInt → EInt → EInt) (X : B → EInt)
    (app : B → M → B) (b : B)
    (hf : ∀ (mv : M) (al bt : EInt), al < bt →
      Approx (X (app b mv)) al bt (f (app b mv) al bt))
    (hfin : ∀ mv : M, ∃ n : Int, X (app b mv) = toE n) :
    ∀ (ms : List M) (best : EInt) (bm : Option M),
      ((best = ⊥ ∧ bm = none) ∨
        (∃ m0 n0, bm = some m0 ∧ X (app b m0) = best ∧ best = toE n0)) →
      (rootGo f app b ms best bm best ⊤).1
          = ms.foldl (fun acc mv => max acc (X (app b mv))) best ∧
      (((rootGo f app b ms best bm best ⊤).1 = ⊥ ∧
          (rootGo f app b ms best bm best ⊤).2 = none) ∨
        (∃ m0 n0, (rootGo f app b ms best bm best ⊤).2 = some m0 ∧
          X (app b m0) = (rootGo f app b ms best bm best ⊤).1 ∧
          (rootGo f app b ms best bm best ⊤).1 = toE n0 ∧
          (bm = some m0 ∨ m0 ∈ ms))) := by
  intro ms
  induction ms with
  | nil =>
    intro best bm hInv
    simp only [rootGo, List.foldl_nil]
    refine ⟨by simp, ?_⟩
    rcases hInv with ⟨h1, h2⟩ | ⟨m0, n0, h1, h2, h3⟩
    · exact Or.inl ⟨h1, h2⟩
    · exact Or.inr ⟨m0, n0, h1, h2, h3, Or.inl h1⟩
  | cons mv ms ih =>
    intro best bm hInv
    have hbt : best < ⊤ := by
      rcases hInv with ⟨h1, _⟩ | ⟨m0, n0, _, _, h3⟩
      · rw [h1]; exact bot_lt_top
      · rw [h3]; exact toE_lt_top n0
    obtain ⟨nc, hnc⟩ := hfin mv
    obtain ⟨hg1, hg2, hg3⟩ := hf mv best ⊤ hbt
    simp only [rootGo, List.foldl_cons]
    by_cases hlt : best < f (app b mv) best ⊤
    · simp only [if_pos hlt]
      have hst : f (app b mv) best ⊤ < ⊤ := by
        rcases lt_or_ge (f (app b mv) best ⊤) ⊤ with h | h
        · exact h
        · exfalso
          have h2 := hg3 h
          rw [hnc] at h2
          exact absurd (lt_of_le_of_lt (le_trans h h2) (toE_lt_top nc)) (lt_irrefl _)
      have hseq : f (app b mv) best ⊤ = X (app b mv) := hg2 hlt hst
      simp only [if_neg (not_le.mpr hst)]
      rw [max_eq_right (le_of_lt hlt)]
      obtain ⟨IHa, IHb⟩ := ih (f (app b mv) best ⊤) (some mv)
        (Or.inr ⟨mv, nc, rfl, hseq.symm, by rw [hseq, hnc]⟩)
      constructor
      · rw [IHa]
        congr 1
        rw [← hseq]
        exact (max_eq_right (le_of_lt hlt)).symm
      · rcases IHb with ⟨h1, h2⟩ | ⟨m0, n0, h1, h2, h3, h4⟩
        · exact Or.inl ⟨h1, h2⟩
        · refine Or.inr ⟨m0, n0, h1, h2, h3, Or.inr ?_⟩
          rcases h4 with h4 | h4
          · obtain rfl : mv = m0 := Option.some.inj h4
            exact List.mem_cons_self _ _
          · exact List.mem_cons_of_mem _ h4
    · simp only [if_neg hlt]
      have hsb : f (app b mv) best ⊤ ≤ best := not_lt.mp hlt
      have hXb : X (app b mv) ≤ best := le_trans (hg1 hsb) hsb
      simp only [if_neg (not_le.mpr hbt)]
      rw [max_self]
      obtain ⟨IHa, IHb⟩ := ih best bm hInv
      constructor
      · rw [IHa]
        congr 1
        exact (max_eq_left hXb).symm
      · rcases IHb with ⟨h1, h2⟩ | ⟨m0, n0, h1, h2, h3, h4⟩
        · exact Or.inl ⟨h1, h2⟩
        · refine Or.inr ⟨m0, n0, h1, h2, h3, ?_⟩
          rcases h4 with h4 | h4
          · exact Or.inl h4
          · exact Or.inr (List.mem_cons_of_mem _ h4)

/-- C1: alpha-beta pruning preserves the search value.  Over the full
initial window, `_max_value` and `_min_value` return exactly the value of
the exhaustive (non-pruned) minimax of the same depth over the same
successor function and evaluator; and for any board with legal moves, the
root loop of `get_move` picks a move whose exhaustive minimax value equals
the returned best score, which itself is the exhaustive minimax value of
the position at depth `max_depth`. -/
theorem c1_alphabeta_equiv {B M : Type} (g : Game B M) (d : Nat) (bd : B)
    (hne : g.maxMoves bd ≠ []) :
    ((abPy g d).1 bd ⊥ ⊤ = (exhaust g d).1 bd) ∧
    ((abPy g d).2 bd ⊥ ⊤ = (exhaust g d).2 bd) ∧
    (∃ mstar : M, (chooseMoveAB g d bd).2 = some mstar ∧ mstar ∈ g.maxMoves bd ∧
      (exhaust g (d - 1)).2 (g.applyMax bd mstar) = (chooseMoveAB g d bd).1 ∧
      (chooseMoveAB g d bd).1
        = (g.maxMoves bd).foldl
            (fun acc mv => max acc ((exhaust g (d - 1)).2 (g.applyMax bd mv))) ⊥ ∧
      (g.maxStop bd = false → ∀ e : Nat, d = e + 1 →
        (chooseMoveAB g d bd).1 = (exhaust g d).1 bd)) := by
  obtain ⟨he1, he2⟩ := ab_eq_exhaust g d bd
  refine ⟨he1, he2, ?_⟩
  have hf : ∀ (mv : M) (al bt : EInt), al < bt →
      Approx ((exhaust g (d - 1)).2 (g.applyMax bd mv)) al bt
        ((abPy g (d - 1)).2 (g.applyMax bd mv) al bt) :=
    fun mv al bt h => (ab_approx g (d - 1)).2 _ al bt h
  have hfin : ∀ mv : M, ∃ n : Int, (exhaust g (d - 1)).2 (g.applyMax bd mv) = toE n :=
    fun mv => (exhaust_finite g (d - 1)).2 _
  obtain ⟨hA, hB⟩ := rootGo_spec (abPy g (d - 1)).2 (exhaust g (d - 1)).2 g.applyMax
    bd hf hfin (g.maxMoves bd) ⊥ none (Or.inl ⟨rfl, rfl⟩)
  have hfold : ∃ n, (g.maxMoves bd).foldl
      (fun acc mv => max acc ((exhaust g (d - 1)).2 (g.applyMax bd mv))) ⊥ = toE n :=
    foldl_max_finite _ _ _ (fun mv _ => hfin mv) (Or.inr ⟨rfl, hne⟩)
  rcases hB with ⟨h1, _⟩ | ⟨m0, n0, h1, h2, h3, h4⟩
  · exfalso
    obtain ⟨n, hn⟩ := hfold
    rw [hA, hn] at h1
    exact toE_ne_bot n h1
  · have hmem : m0 ∈ g.maxMoves bd := by
      rcases h4 with h4 | h4
      · exact absurd h4 (by simp)
      · exact h4
    refine ⟨m0, h1, hmem, h2, hA, ?_⟩
    intro hstop e he
    subst he
    have hd1 : e + 1 - 1 = e := by omega
    have hex : (exhaust g (e + 1)).1 bd
        = (g.maxMoves bd).foldl
            (fun acc mv => max acc ((exhaust g e).2 (g.applyMax bd mv))) ⊥ := by
      simp only [exhaust]
      rw [hstop]
      cases hm : g.maxMoves bd with
      | nil => exact absurd hm hne
      | cons mv2 ms2 => simp
    rw [hex]
    rw [hd1] at hA
    exact hA

/-- Witness for C1: the equivalence instantiated on the concrete toy game
at depth 2 from board 0, where two root moves exist. -/
theorem c1_alphabeta_equiv_witness :
    ((abPy toyGame 2).1 0 ⊥ ⊤ = (exhaust toyGame 2).1 0) ∧
    ((abPy toyGame 2).2 0 ⊥ ⊤ = (exhaust toyGame 2).2 0) ∧
    (∃ mstar : Nat, (chooseMoveAB toyGame 2 0).2 = some mstar ∧
      mstar ∈ toyGame.maxMoves 0 ∧
      (exhaust toyGame (2 - 1)).2 (toyGame.applyMax 0 mstar)
        = (chooseMoveAB toyGame 2 0).1 ∧
      (chooseMoveAB toyGame 2 0).1
        = (toyGame.maxMoves 0).foldl
            (fun acc mv => max acc ((exhaust toyGame (2 - 1)).2 (toyGame.applyMax 0 mv))) ⊥ ∧
      (toyGame.maxStop 0 = false → ∀ e : Nat, 2 = e + 1 →
        (chooseMoveAB toyGame 2 0).1 = (exhaust toyGame 2).1 0)) :=
  c1_alphabeta_equiv toyGame 2 0 (by decide)

end MinimalAI
